import Mathlib

/-!
# Monotonic sections of a point sequence

A shallow embedding of `ggl/algorithms/sectionalize.hpp` (Generic Geometry
Library, as bundled with the map editor) and the properties of the sections
it produces.

Modelling choices, all visible in the definitions below:

* a coordinate is an `Int`, a point is the list of its coordinates and
  `get p D` reads coordinate `D`.  The template's `coordinate_type` is a
  parameter: an exact type, or a two's-complement integer of a given width,
  whose subtraction wraps (`% 2^bits`); `get_direction_loop` and
  `check_duplicate_loop` subtract in it.
* a C array `int a[DimensionCount]` is a `List Int` of that length; `a[D]` is
  `a.getD D 0` and `a[D] = v` is `a.set D v`.
* the `Dimension`/`DimensionCount` template recursions recurse on the number
  of instantiations left before the terminal specialisation
  (`DimensionCount - Dimension`), next to the current `Dimension`.
* `int` indices are `Int`, `std::size_t` counters are `Nat`: signed overflow
  is undefined in the source, so the embedding describes ranges of fewer than
  `2^31` points, where no index wraps.
* `ggl::math::equals`, `ggl::combine` and `ggl::assign_inverse` live in
  headers outside this file's source: `equals` is a parameter, the box
  operations follow the specification.
-/

namespace ggl

/-- A point, the list of its coordinates. -/
abbrev Point := List Int

/-- The accessor `ggl::get<D>(p)`. -/
def get (p : Point) (D : Nat) : Int := p.getD D 0

/-- The type `ggl::segment<const Point>`: a pair of points. -/
structure segment where
  first : Point
  second : Point
deriving DecidableEq, Repr

/-- The indexed accessor `ggl::get<Index, D>(seg)`: index 0 is the first point,
index 1 the second. -/
def get_indexed (Index D : Nat) (seg : segment) : Int :=
  if Index = 0 then get seg.first D else get seg.second D

/-- The coordinate type of the points, a template parameter of the source
(`coordinate_type<Segment>::type`): an exact type, where a difference never
overflows, or a two's-complement integer type of `bits` bits. -/
inductive coordinate_type where
  | exact
  | int (bits : Nat)
deriving DecidableEq, Repr

/-- A value wrapped into the range `[-2^(bits-1), 2^(bits-1))` of a two's-complement
integer of `bits` bits; the modulus `2 * 2^(bits-1)` is `2^bits`. -/
def wrap (bits : Nat) (x : Int) : Int :=
  (x + 2 ^ (bits - 1)) % (2 * 2 ^ (bits - 1)) - 2 ^ (bits - 1)

/-- The subtraction `a - b` as `coordinate_type` computes it. -/
def coordinate_type.minus : coordinate_type → Int → Int → Int
  | coordinate_type.exact, a, b => a - b
  | coordinate_type.int bits, a, b => wrap bits (a - b)

/-- A value the coordinate type can hold. -/
def representable : coordinate_type → Int → Prop
  | coordinate_type.exact, _ => True
  | coordinate_type.int bits, x => -(2 ^ (bits - 1)) ≤ x ∧ x < 2 ^ (bits - 1)

instance representable_decidable (ct : coordinate_type) (x : Int) :
    Decidable (representable ct x) := by
  cases ct <;> unfold representable <;> infer_instance

/-- An axis-aligned box given by its two corners. -/
structure box where
  min_corner : Point
  max_corner : Point
deriving DecidableEq, Repr

/-- The box type of a section: `none` is the inverse (empty) box, which the
first `combine` replaces. -/
abbrev Box := Option box

/-- Modelled from the spec: `ggl::assign_inverse` (header `ggl/algorithms/assign.hpp`
is not part of the source at hand).  The bounding box is "initialized to an
inverse/empty box (so the first union call establishes it)". -/
def assign_inverse : Box := none

/-- Modelled from the spec: `ggl::combine(box, point)` (header
`ggl/algorithms/combine.hpp` is not part of the source at hand), the box-union
operation: the first union establishes the box, every later one widens each
axis to contain the point. -/
def combine (b : Box) (p : Point) : Box :=
  match b with
  | none => some ⟨p, p⟩
  | some bx => some ⟨List.zipWith min bx.min_corner p, List.zipWith max bx.max_corner p⟩

/-- The structure `ggl::section<Box, DimensionCount>` (a reserved word in Lean,
hence the capital). -/
structure Section where
  directions : List Int
  ring_index : Int
  multi_index : Int
  bounding_box : Box
  begin_index : Int
  end_index : Int
  count : Nat
  range_count : Nat
  duplicate : Bool
  non_duplicate_index : Int
deriving DecidableEq, Repr

/-- The constructor `section::section()`. -/
def Section.new (DimensionCount : Nat) : Section where
  directions := List.replicate DimensionCount 0
  ring_index := -99
  multi_index := -99
  bounding_box := assign_inverse
  begin_index := -1
  end_index := -1
  count := 0
  range_count := 0
  duplicate := false
  non_duplicate_index := -1

/-- The template `get_direction_loop<Segment, Dimension, DimensionCount>::apply`, with
`left = DimensionCount - Dimension`. -/
def get_direction_loop (ct : coordinate_type) (seg : segment) :
    Nat → Nat → List Int → List Int
  | 0, _, directions => directions
  | left + 1, Dimension, directions =>
    let diff := ct.minus (get_indexed 1 Dimension seg) (get_indexed 0 Dimension seg)
    get_direction_loop ct seg left (Dimension + 1)
      (directions.set Dimension (if diff > 0 then 1 else (if diff < 0 then -1 else 0)))

/-- The template `copy_loop<T, Dimension, DimensionCount>::apply`, with
`left = DimensionCount - Dimension`; returns the target array. -/
def copy_loop (source : List Int) : Nat → Nat → List Int → List Int
  | 0, _, target => target
  | left + 1, Dimension, target =>
    copy_loop source left (Dimension + 1) (target.set Dimension (source.getD Dimension 0))

/-- The template `compare_loop<T, Dimension, DimensionCount>::apply`, with
`left = DimensionCount - Dimension`. -/
def compare_loop (source target : List Int) : Nat → Nat → Bool
  | 0, _ => true
  | left + 1, Dimension =>
    let not_equal := target.getD Dimension 0 != source.getD Dimension 0
    if not_equal then false else compare_loop source target left (Dimension + 1)

/-- The template `check_duplicate_loop<Segment, Dimension, DimensionCount>::apply`, with
`left = DimensionCount - Dimension`; `equals` stands for `ggl::math::equals`. -/
def check_duplicate_loop (ct : coordinate_type) (equals : Int → Int → Bool) (seg : segment) :
    Nat → Nat → Bool
  | 0, _ => true
  | left + 1, Dimension =>
    let diff := ct.minus (get_indexed 1 Dimension seg) (get_indexed 0 Dimension seg)
    if !(equals diff 0) then false
    else check_duplicate_loop ct equals seg left (Dimension + 1)

/-- The template `assign_loop<T, Dimension, DimensionCount>::apply`, with
`left = DimensionCount - Dimension`; returns the array. -/
def assign_loop (value : Int) : Nat → Nat → List Int → List Int
  | 0, _, dims => dims
  | left + 1, Dimension, dims =>
    assign_loop value left (Dimension + 1) (dims.set Dimension value)

/-- The classification of one segment: lines 289-324 of `sectionalize_range::apply`,
giving the final `direction_classes` and `duplicate`.  `PointDim` is
`ggl::dimension<Point>::type::value`. -/
def classify (ct : coordinate_type) (DimensionCount PointDim : Nat) (equals : Int → Int → Bool)
    (s : segment) : List Int × Bool :=
  let direction_classes :=
    get_direction_loop ct s DimensionCount 0 (List.replicate DimensionCount 0)
  let check_duplicate := true
  if check_duplicate && direction_classes.getD 0 0 == 0 then
    if check_duplicate_loop ct equals s PointDim 0 then
      (assign_loop (-99) DimensionCount 0 direction_classes, true)
    else (direction_classes, false)
  else (direction_classes, false)

/-- The local variables of `sectionalize_range::apply` that live across
iterations: the output collection, the accumulator `section`, `i` and `ndi`. -/
structure loop_state where
  sections : List Section
  sec : Section
  i : Int
  ndi : Int
deriving DecidableEq, Repr

/-- One iteration of the `for` loop of `sectionalize_range::apply` (lines 289-361)
followed by its increment `i++`; `range_size` is `boost::size(range)`. -/
def loop_body (ct : coordinate_type) (DimensionCount PointDim MaxCount : Nat)
    (equals : Int → Int → Bool)
    (ring_index multi_index : Int) (range_size : Nat)
    (st : loop_state) (previous it : Point) : loop_state :=
  let s : segment := ⟨previous, it⟩
  let cls := classify ct DimensionCount PointDim equals s
  let direction_classes := cls.1
  let duplicate := cls.2
  let flush : Bool :=
    decide (st.sec.count > 0)
      && (!(compare_loop direction_classes st.sec.directions DimensionCount 0)
          || decide (st.sec.count > MaxCount))
  let sections := if flush then st.sections ++ [st.sec] else st.sections
  let sec1 := if flush then Section.new DimensionCount else st.sec
  let sec2 :=
    if sec1.count = 0 then
      { sec1 with
        begin_index := st.i
        ring_index := ring_index
        multi_index := multi_index
        duplicate := duplicate
        non_duplicate_index := st.ndi
        range_count := range_size
        directions := copy_loop direction_classes DimensionCount 0 sec1.directions
        bounding_box := combine sec1.bounding_box previous }
    else sec1
  let sec3 :=
    { sec2 with
      bounding_box := combine sec2.bounding_box it
      end_index := st.i + 1
      count := sec2.count + 1 }
  { sections := sections
    sec := sec3
    i := st.i + 1
    ndi := if !duplicate then st.ndi + 1 else st.ndi }

/-- The `for` loop of `sectionalize_range::apply`: `previous` trails the iterator
`it` over the remaining points. -/
def loop (ct : coordinate_type) (DimensionCount PointDim MaxCount : Nat) (equals : Int → Int → Bool)
    (ring_index multi_index : Int) (range_size : Nat) :
    loop_state → Point → List Point → loop_state
  | st, _, [] => st
  | st, previous, it :: rest =>
    loop ct DimensionCount PointDim MaxCount equals ring_index multi_index range_size
      (loop_body ct DimensionCount PointDim MaxCount equals ring_index multi_index range_size
        st previous it) it rest

/-- The function `detail::sectionalize::sectionalize_range::apply`: the sections
collection after the call. -/
def sectionalize_range (ct : coordinate_type) (DimensionCount PointDim MaxCount : Nat)
    (equals : Int → Int → Bool)
    (range : List Point) (sections : List Section) (ring_index multi_index : Int) :
    List Section :=
  let n := range.length
  if n = 0 then sections
  else if n = 1 then sections
  else
    match range with
    | [] => sections
    | first :: rest =>
      let st := loop ct DimensionCount PointDim MaxCount equals ring_index multi_index n
        ⟨sections, Section.new DimensionCount, 0, 0⟩ first rest
      if st.sec.count > 0 then st.sections ++ [st.sec] else st.sections

/-- Exact equality, what `ggl::math::equals` is for an integral coordinate type. -/
def equals_exact (a b : Int) : Bool := a == b

/-- Modelled from the spec: `ggl::assign_box_corners` (header
`ggl/util/assign_box_corner.hpp` is not part of the source at hand), the four
corners of a 2-D box as `(ll, lr, ul, ur)`: lower-left, lower-right,
upper-left, upper-right. -/
def assign_box_corners (b : box) : Point × Point × Point × Point :=
  ([get b.min_corner 0, get b.min_corner 1],
   [get b.max_corner 0, get b.min_corner 1],
   [get b.min_corner 0, get b.max_corner 1],
   [get b.max_corner 0, get b.max_corner 1])

/-- A polygon: its exterior ring and its interior rings. -/
structure polygon where
  exterior_ring : List Point
  interior_rings : List (List Point)
deriving DecidableEq, Repr

/-- The loop over the interior rings in `sectionalize_polygon::apply`, from ring
number `i` on. -/
def sectionalize_interior_rings (ct : coordinate_type) (DimensionCount PointDim MaxCount : Nat)
    (equals : Int → Int → Bool) (multi_index : Int) :
    List (List Point) → Int → List Section → List Section
  | [], _, sections => sections
  | it :: rest, i, sections =>
    sectionalize_interior_rings ct DimensionCount PointDim MaxCount equals multi_index rest (i + 1)
      (sectionalize_range ct DimensionCount PointDim MaxCount equals it sections i multi_index)

/-- The function `detail::sectionalize::sectionalize_polygon::apply`. -/
def sectionalize_polygon (ct : coordinate_type) (DimensionCount PointDim MaxCount : Nat) (equals :
    Int → Int → Bool)
    (poly : polygon) (sections : List Section) (multi_index : Int) : List Section :=
  let sections1 := sectionalize_range ct DimensionCount PointDim MaxCount equals
    poly.exterior_ring sections (-1) multi_index
  sectionalize_interior_rings ct DimensionCount PointDim MaxCount equals multi_index
    poly.interior_rings 0 sections1

/-- The function `detail::sectionalize::sectionalize_box::apply`; `assert_dimension<Box, 2>`
fixes the point dimension to 2, and the range call takes the default
`ring_index = -1`, `multi_index = -1`. -/
def sectionalize_box (ct : coordinate_type) (DimensionCount MaxCount : Nat)
    (equals : Int → Int → Bool)
    (b : box) (sections : List Section) : List Section :=
  let (ll, lr, ul, ur) := assign_box_corners b
  let points : List Point := [ll, ul, ur, lr, ll]
  sectionalize_range ct DimensionCount 2 MaxCount equals points sections (-1) (-1)

/-- The geometry kinds the dispatcher knows: `box_tag`, `linestring_tag`, `ring_tag`,
`polygon_tag`. -/
inductive Geometry where
  | box (b : box)
  | linestring (l : List Point)
  | ring (r : List Point)
  | polygon (p : polygon)
deriving DecidableEq, Repr

/-- The tag dispatch `dispatch::sectionalize<Tag, ...>::apply(geometry, sections)`. -/
def dispatch_sectionalize (ct : coordinate_type) (DimensionCount PointDim MaxCount : Nat) (equals :
    Int → Int → Bool)
    (geometry : Geometry) (sections : List Section) : List Section :=
  match geometry with
  | .box b => sectionalize_box ct DimensionCount MaxCount equals b sections
  | .linestring l =>
    sectionalize_range ct DimensionCount PointDim MaxCount equals l sections (-1) (-1)
  | .ring r =>
    sectionalize_range ct DimensionCount PointDim MaxCount equals r sections (-1) (-1)
  | .polygon p => sectionalize_polygon ct DimensionCount PointDim MaxCount equals p sections (-1)

/-- The member `std::vector::clear()`: the emptied collection. -/
def clear (_sections : List Section) : List Section := []

/-- The constant `max_segments_per_section` of the top-level `sectionalize`. -/
def max_segments_per_section : Nat := 10

/-- The top-level `ggl::sectionalize(geometry, sections)`: the collection is
cleared, then filled; `DimensionCount` is `Sections::value`. -/
def sectionalize (ct : coordinate_type) (DimensionCount PointDim : Nat) (equals : Int → Int → Bool)
    (geometry : Geometry) (sections : List Section) : List Section :=
  dispatch_sectionalize ct DimensionCount PointDim max_segments_per_section equals geometry
    (clear sections)

/-! ## Notions used to state the properties -/

/-- The sign classes of a segment on the first `DimensionCount` axes, each the sign of
the difference as the coordinate type computes it. -/
def dir_signs (ct : coordinate_type) (DimensionCount : Nat) (s : segment) : List Int :=
  (List.range DimensionCount).map (fun d => Int.sign (ct.minus (get s.second d) (get s.first d)))

/-- The section a fresh accumulator becomes after its first edge (lines 339-357). -/
def fresh_section (ct : coordinate_type) (DimensionCount PointDim : Nat) (equals : Int → Int → Bool)
    (ring_index multi_index : Int) (range_size : Nat) (i ndi : Int)
    (previous it : Point) : Section where
  directions := (classify ct DimensionCount PointDim equals ⟨previous, it⟩).1
  ring_index := ring_index
  multi_index := multi_index
  bounding_box := combine (combine assign_inverse previous) it
  begin_index := i
  end_index := i + 1
  count := 1
  range_count := range_size
  duplicate := (classify ct DimensionCount PointDim equals ⟨previous, it⟩).2
  non_duplicate_index := ndi

/-- The segment from point `j` to point `j + 1` of a range: edge `j`. -/
def edge_at (range : List Point) (j : Nat) : segment :=
  ⟨range.getD j [], range.getD (j + 1) []⟩

/-- The number of edges before edge `k` that are not flagged duplicate. -/
def nondup_before (ct : coordinate_type) (dc pd : Nat)
    (equals : Int → Int → Bool) (range : List Point)
    (k : Nat) : Nat :=
  (List.range k).countP (fun j => !(classify ct dc pd equals (edge_at range j)).2)

/-- The box `bb` is the smallest axis-aligned box around the points at positions
`b, ..., e` (both included) of `range`: on each of the `pd` axes its corners
bound every such point and are attained by one of them. -/
def IsBBox (pd : Nat) (range : List Point) (b e : Int) (bb : Box) : Prop :=
  ∃ bx, bb = some bx ∧ bx.min_corner.length = pd ∧ bx.max_corner.length = pd ∧
    ∀ d, d < pd →
      (∀ j : Nat, b ≤ j → (j : Int) ≤ e →
        get bx.min_corner d ≤ get (range.getD j []) d ∧
        get (range.getD j []) d ≤ get bx.max_corner d) ∧
      (∃ j : Nat, b ≤ j ∧ (j : Int) ≤ e ∧ get (range.getD j []) d = get bx.min_corner d) ∧
      (∃ j : Nat, b ≤ j ∧ (j : Int) ≤ e ∧ get (range.getD j []) d = get bx.max_corner d)

/-- What a section emitted for `range` records about the edges it covers. -/
structure SecOK (ct : coordinate_type) (dc pd MaxCount : Nat)
    (equals : Int → Int → Bool) (range : List Point)
    (r m : Int) (s : Section) : Prop where
  begin_nonneg : 0 ≤ s.begin_index
  begin_lt_end : s.begin_index < s.end_index
  end_lt_size : s.end_index < range.length
  count_eq : (s.count : Int) = s.end_index - s.begin_index
  count_le : s.count ≤ MaxCount + 1
  dirs_len : s.directions.length = dc
  dirs : ∀ j : Nat, s.begin_index ≤ j → (j : Int) < s.end_index →
    (classify ct dc pd equals (edge_at range j)).1 = s.directions
  dup_first : ∀ b : Nat, s.begin_index = b →
    (classify ct dc pd equals (edge_at range b)).2 = s.duplicate
  ndi : s.non_duplicate_index = nondup_before ct dc pd equals range s.begin_index.toNat
  range_count : s.range_count = range.length
  ring : s.ring_index = r
  multi : s.multi_index = m
  bbox : (∀ p ∈ range, p.length = pd) →
    IsBBox pd range s.begin_index s.end_index s.bounding_box

/-- How two sections emitted one after the other relate: the second starts where
the first ends, and the split had a cause. -/
def Adj (MaxCount : Nat) (s t : Section) : Prop :=
  s.end_index = t.begin_index ∧ (t.directions ≠ s.directions ∨ s.count = MaxCount + 1)

/-- The loop invariant after `k ≥ 1` edges: `out` is what the call has appended so
far, and `out` followed by the accumulator is a chain of well-described sections
over the edges `0, ..., k - 1`. -/
def InvPos (ct : coordinate_type) (dc pd MaxCount : Nat)
    (equals : Int → Int → Bool) (range : List Point)
    (r m : Int) (S : List Section) (st : loop_state) (k : Nat) : Prop :=
  ∃ out, st.sections = S ++ out ∧ st.i = k ∧
    st.ndi = nondup_before ct dc pd equals range k ∧ st.sec.end_index = k ∧
    (∀ s ∈ out ++ [st.sec], SecOK ct dc pd MaxCount equals range r m s) ∧
    List.Chain' (Adj MaxCount) (out ++ [st.sec]) ∧
    (∀ x ∈ (out ++ [st.sec]).head?, x.begin_index = 0)

/-- Whether edge `j` lies in the half-open index range of a section. -/
def covers (j : Int) (s : Section) : Bool :=
  decide (s.begin_index ≤ j ∧ j < s.end_index)

/-- A degenerate segment: its two endpoints coincide in each of the `pd` coordinate
dimensions of the point type. -/
def degenerate (pd : Nat) (s : segment) : Prop :=
  ∀ d, d < pd → get s.second d = get s.first d

instance degenerate_decidable (pd : Nat) (s : segment) : Decidable (degenerate pd s) := by
  unfold degenerate
  infer_instance

/-- The seven-point staircase `(0,0),(1,0),(2,0),(2,1),(2,2),(1,2),(0,2)`. -/
def staircase : List Point := [[0, 0], [1, 0], [2, 0], [2, 1], [2, 2], [1, 2], [0, 2]]

/-- Twelve collinear points `(0,0), (1,0), ..., (11,0)`: eleven edges of one direction. -/
def collinear12 : List Point :=
  [[0, 0], [1, 0], [2, 0], [3, 0], [4, 0], [5, 0], [6, 0], [7, 0], [8, 0], [9, 0], [10, 0],
    [11, 0]]

/-- An equals test with a tolerance of one unit: it holds at `0` and accepts every
difference of absolute value at most `1`. -/
def equals_tolerant (a b : Int) : Bool := decide ((a - b).natAbs ≤ 1)

/-- Five 3-D points: two edges that move along the third axis only, then two
degenerate edges. -/
def mixed_range : List Point := [[0, 0, 0], [0, 0, 1], [0, 0, 0], [0, 0, 0], [0, 0, 0]]

/-- The sections of a polygon as the specification words them: those of the exterior
ring computed on its own with `ring_index = -1`, then those of hole `j`, for
`j = 0, 1, ...` in order, each computed on its own with `ring_index = j`; all
with the caller's `multi_index`. -/
def polygon_sections_spec (ct : coordinate_type) (dc pd MaxCount : Nat) (equals : Int → Int → Bool)
    (poly : polygon) (multi_index : Int) : List Section :=
  sectionalize_range ct dc pd MaxCount equals poly.exterior_ring [] (-1) multi_index
    ++ ((List.range poly.interior_rings.length).map
          (fun j => sectionalize_range ct dc pd MaxCount equals
            (poly.interior_rings.getD j []) [] (j : Int) multi_index)).flatten

/-! ## The coordinate type -/

theorem wrap_eq_self (bits : Nat) (x : Int) (h1 : -(2 ^ (bits - 1)) ≤ x)
    (h2 : x < 2 ^ (bits - 1)) : wrap bits x = x := by
  unfold wrap
  rw [Int.emod_eq_of_lt (by omega) (by omega)]
  omega

theorem wrap_eq_zero_iff (bits : Nat) (x : Int) (h1 : -(2 * 2 ^ (bits - 1)) < x)
    (h2 : x < 2 * 2 ^ (bits - 1)) : wrap bits x = 0 ↔ x = 0 := by
  have hpos : (0 : Int) < 2 ^ (bits - 1) := by positivity
  by_cases ha : x < -(2 ^ (bits - 1))
  · have e : x + 2 ^ (bits - 1)
        = (x + 3 * 2 ^ (bits - 1)) + (2 * 2 ^ (bits - 1)) * (-1) := by ring
    unfold wrap
    rw [e, Int.add_mul_emod_self_left, Int.emod_eq_of_lt (by omega) (by omega)]
    constructor <;> intro h <;> omega
  · by_cases hb : x < 2 ^ (bits - 1)
    · rw [wrap_eq_self bits x (by omega) hb]
    · have e : x + 2 ^ (bits - 1)
          = (x - 2 ^ (bits - 1)) + (2 * 2 ^ (bits - 1)) * 1 := by ring
      unfold wrap
      rw [e, Int.add_mul_emod_self_left, Int.emod_eq_of_lt (by omega) (by omega)]
      constructor <;> intro h <;> omega

theorem representable_zero (ct : coordinate_type) : representable ct 0 := by
  cases ct with
  | exact => trivial
  | int bits =>
    have hpos : (0 : Int) < 2 ^ (bits - 1) := by positivity
    exact ⟨by omega, hpos⟩

theorem representable_get (ct : coordinate_type) (p : Point) (d : Nat)
    (h : ∀ c ∈ p, representable ct c) : representable ct (get p d) := by
  unfold get
  by_cases hd : d < p.length
  · rw [List.getD_eq_getElem _ _ hd]
    exact h _ (List.getElem_mem _)
  · rw [List.getD_eq_default _ _ (by omega)]
    exact representable_zero ct

theorem minus_eq_of_representable (ct : coordinate_type) (a b : Int)
    (h : representable ct (a - b)) : ct.minus a b = a - b := by
  cases ct with
  | exact => rfl
  | int bits => exact wrap_eq_self bits (a - b) h.1 h.2

theorem minus_eq_zero_iff (ct : coordinate_type) (a b : Int)
    (ha : representable ct a) (hb : representable ct b) : ct.minus a b = 0 ↔ a = b := by
  cases ct with
  | exact =>
    show a - b = 0 ↔ a = b
    omega
  | int bits =>
    have h1 := ha.1
    have h2 := ha.2
    have h3 := hb.1
    have h4 := hb.2
    show wrap bits (a - b) = 0 ↔ a = b
    rw [wrap_eq_zero_iff bits (a - b) (by omega) (by omega)]
    omega

theorem edge_at_representable (ct : coordinate_type) (range : List Point) (j : Nat)
    (hrep : ∀ p ∈ range, ∀ c ∈ p, representable ct c) :
    ∀ c ∈ range.getD j [], representable ct c := by
  by_cases hj : j < range.length
  · rw [List.getD_eq_getElem _ _ hj]
    exact hrep _ (List.getElem_mem _)
  · rw [List.getD_eq_default _ _ (by omega)]
    intro c hc
    cases hc

/-! ## The template loops as list operations -/

theorem get_indexed_zero (D : Nat) (seg : segment) :
    get_indexed 0 D seg = get seg.first D := rfl

theorem get_indexed_one (D : Nat) (seg : segment) :
    get_indexed 1 D seg = get seg.second D := rfl

theorem sign_ite (x : Int) :
    (if x > 0 then (1 : Int) else (if x < 0 then -1 else 0)) = Int.sign x := by
  rcases lt_trichotomy x 0 with h | h | h
  · rw [Int.sign_eq_neg_one_of_neg h]; simp [h, not_lt.mpr (le_of_lt h)]
  · subst h; simp
  · rw [Int.sign_eq_one_of_pos h]; simp [h]

theorem get_direction_loop_append (ct : coordinate_type) (seg : segment) :
    ∀ (left D : Nat) (pre suf : List Int), pre.length = D → suf.length = left →
      get_direction_loop ct seg left D (pre ++ suf)
        = pre ++ (List.range' D left).map
            (fun d => Int.sign (ct.minus (get seg.second d) (get seg.first d))) := by
  intro left
  induction left with
  | zero =>
    intro D pre suf _ hs
    have : suf = [] := List.length_eq_zero.mp hs
    simp [get_direction_loop, this]
  | succ n ih =>
    intro D pre suf hp hs
    obtain ⟨x, suf1, rfl⟩ := List.exists_cons_of_length_eq_add_one hs
    have hs1 : suf1.length = n := by simpa using hs
    have hset : ∀ v : Int, (pre ++ x :: suf1).set D v = (pre ++ [v]) ++ suf1 := by
      intro v
      subst hp
      simp
    simp only [get_direction_loop, get_indexed_zero, get_indexed_one]
    rw [sign_ite, hset, ih (D + 1) (pre ++ [_]) suf1 (by simp [hp]) hs1]
    simp [List.range'_succ]

theorem get_direction_loop_eq (ct : coordinate_type) (seg : segment) (dc : Nat) :
    get_direction_loop ct seg dc 0 (List.replicate dc 0) = dir_signs ct dc seg := by
  have h := get_direction_loop_append ct seg dc 0 [] (List.replicate dc 0) rfl (by simp)
  simpa [dir_signs, List.range_eq_range'] using h

theorem assign_loop_append (v : Int) :
    ∀ (left D : Nat) (pre suf : List Int), pre.length = D → suf.length = left →
      assign_loop v left D (pre ++ suf) = pre ++ List.replicate left v := by
  intro left
  induction left with
  | zero =>
    intro D pre suf _ hs
    have : suf = [] := List.length_eq_zero.mp hs
    simp [assign_loop, this]
  | succ n ih =>
    intro D pre suf hp hs
    obtain ⟨x, suf1, rfl⟩ := List.exists_cons_of_length_eq_add_one hs
    have hs1 : suf1.length = n := by simpa using hs
    have hset : (pre ++ x :: suf1).set D v = (pre ++ [v]) ++ suf1 := by
      subst hp
      simp
    simp only [assign_loop]
    rw [hset, ih (D + 1) (pre ++ [v]) suf1 (by simp [hp]) hs1]
    simp [List.replicate_succ]

theorem assign_loop_eq (v : Int) (dc : Nat) (dims : List Int) (h : dims.length = dc) :
    assign_loop v dc 0 dims = List.replicate dc v := by
  simpa using assign_loop_append v dc 0 [] dims rfl h

theorem copy_loop_append (source : List Int) :
    ∀ (left D : Nat) (pre suf : List Int), pre.length = D → suf.length = left →
      source.length = D + left →
      copy_loop source left D (pre ++ suf) = pre ++ source.drop D := by
  intro left
  induction left with
  | zero =>
    intro D pre suf _ hs hl
    have : suf = [] := List.length_eq_zero.mp hs
    simp only [copy_loop, this, List.append_nil]
    rw [List.drop_of_length_le (by omega)]
    simp
  | succ n ih =>
    intro D pre suf hp hs hl
    obtain ⟨x, suf1, rfl⟩ := List.exists_cons_of_length_eq_add_one hs
    have hs1 : suf1.length = n := by simpa using hs
    have hset : ∀ v : Int, (pre ++ x :: suf1).set D v = (pre ++ [v]) ++ suf1 := by
      intro v
      subst hp
      simp
    have hD : D < source.length := by omega
    simp only [copy_loop]
    rw [hset, ih (D + 1) (pre ++ [_]) suf1 (by simp [hp]) hs1 (by omega)]
    rw [List.drop_eq_getElem_cons hD, List.getD_eq_getElem _ _ hD]
    simp

theorem copy_loop_eq (source target : List Int) (dc : Nat)
    (hs : source.length = dc) (ht : target.length = dc) :
    copy_loop source dc 0 target = source := by
  simpa using copy_loop_append source dc 0 [] target rfl ht (by simpa using hs)

theorem compare_loop_iff (source target : List Int) :
    ∀ (left D : Nat), compare_loop source target left D = true ↔
      ∀ d, D ≤ d → d < D + left → target.getD d 0 = source.getD d 0 := by
  intro left
  induction left with
  | zero =>
    intro D
    simp only [compare_loop, true_iff]
    intro d h1 h2
    omega
  | succ n ih =>
    intro D
    simp only [compare_loop]
    by_cases h : target.getD D 0 = source.getD D 0
    · simp only [h, bne_self_eq_false, Bool.false_eq_true, if_false, ih (D + 1)]
      constructor
      · intro hall d h1 h2
        rcases Nat.eq_or_lt_of_le h1 with heq | hlt
        · subst heq; exact h
        · exact hall d hlt (by omega)
      · intro hall d h1 h2
        exact hall d (by omega) (by omega)
    · have hne : (target.getD D 0 != source.getD D 0) = true := by simpa using h
      simp only [hne, if_true, Bool.false_eq_true, false_iff]
      intro hall
      exact h (hall D le_rfl (by omega))

theorem compare_loop_eq_iff (source target : List Int) (dc : Nat)
    (hs : source.length = dc) (ht : target.length = dc) :
    compare_loop source target dc 0 = true ↔ target = source := by
  rw [compare_loop_iff]
  constructor
  · intro h
    apply List.ext_getElem (by omega)
    intro n h1 h2
    have := h n (Nat.zero_le _) (by omega)
    rwa [List.getD_eq_getElem _ _ h1, List.getD_eq_getElem _ _ h2] at this
  · rintro rfl d _ _
    rfl

theorem check_duplicate_loop_iff (ct : coordinate_type)
    (equals : Int → Int → Bool) (seg : segment) :
    ∀ (left D : Nat), check_duplicate_loop ct equals seg left D = true ↔
      ∀ d, D ≤ d → d < D + left → equals (ct.minus (get seg.second d) (get seg.first d)) 0 = true
          := by
  intro left
  induction left with
  | zero =>
    intro D
    simp only [check_duplicate_loop, true_iff]
    intro d h1 h2
    omega
  | succ n ih =>
    intro D
    simp only [check_duplicate_loop, get_indexed_zero, get_indexed_one]
    by_cases h : equals (ct.minus (get seg.second D) (get seg.first D)) 0 = true
    · simp only [h, Bool.not_true, Bool.false_eq_true, if_false, ih (D + 1)]
      constructor
      · intro hall d h1 h2
        rcases Nat.eq_or_lt_of_le h1 with heq | hlt
        · subst heq; exact h
        · exact hall d hlt (by omega)
      · intro hall d h1 h2
        exact hall d (by omega) (by omega)
    · have hne : equals (ct.minus (get seg.second D) (get seg.first D)) 0 = false := by simpa using
        h
      simp only [hne, Bool.not_false, if_true, Bool.false_eq_true, false_iff]
      intro hall
      exact h (hall D le_rfl (by omega))

/-! ## The classification of a segment -/

theorem dir_signs_length (ct : coordinate_type) (dc : Nat) (s : segment) : (dir_signs ct dc
    s).length = dc := by
  simp [dir_signs]

theorem dir_signs_getD (ct : coordinate_type) (dc : Nat) (s : segment) (d : Nat) (hd : d < dc) :
    (dir_signs ct dc s).getD d 0 = Int.sign (ct.minus (get s.second d) (get s.first d)) := by
  have h : d < (dir_signs ct dc s).length := by simpa [dir_signs] using hd
  rw [List.getD_eq_getElem _ _ h]
  simp [dir_signs]

theorem classify_eq (ct : coordinate_type) (dc pd : Nat) (equals : Int → Int → Bool) (s : segment) :
    classify ct dc pd equals s =
      if (dir_signs ct dc s).getD 0 0 = 0 ∧ check_duplicate_loop ct equals s pd 0 = true
      then (List.replicate dc (-99), true) else (dir_signs ct dc s, false) := by
  unfold classify
  simp only [get_direction_loop_eq, Bool.true_and, beq_iff_eq]
  by_cases h0 : (dir_signs ct dc s).getD 0 0 = 0
  · by_cases h1 : check_duplicate_loop ct equals s pd 0 = true
    · rw [if_pos h0, if_pos h1, if_pos ⟨h0, h1⟩, assign_loop_eq _ _ _ (dir_signs_length ct dc s)]
    · rw [if_pos h0, if_neg h1, if_neg (fun h => h1 h.2)]
  · rw [if_neg h0, if_neg (fun h => h0 h.1)]

theorem classify_fst_length (ct : coordinate_type) (dc pd : Nat)
    (equals : Int → Int → Bool) (s : segment) :
    (classify ct dc pd equals s).1.length = dc := by
  rw [classify_eq]
  split
  · exact List.length_replicate _ _
  · exact dir_signs_length ct dc s

theorem classify_of_not_duplicate (ct : coordinate_type) (dc pd : Nat)
    (equals : Int → Int → Bool) (s : segment)
    (h : (classify ct dc pd equals s).2 = false) :
    (classify ct dc pd equals s).1 = dir_signs ct dc s := by
  rw [classify_eq] at h ⊢
  split at h
  · cases h
  · rename_i hc
    rw [if_neg hc]

theorem classify_of_duplicate (ct : coordinate_type) (dc pd : Nat)
    (equals : Int → Int → Bool) (s : segment)
    (h : (classify ct dc pd equals s).2 = true) :
    (classify ct dc pd equals s).1 = List.replicate dc (-99) := by
  rw [classify_eq] at h ⊢
  split at h
  · rename_i hc
    rw [if_pos hc]
  · cases h

theorem sign_ne_sentinel (x : Int) : Int.sign x ≠ -99 := by
  rcases lt_trichotomy x 0 with h | h | h
  · rw [Int.sign_eq_neg_one_of_neg h]; decide
  · subst h; decide
  · rw [Int.sign_eq_one_of_pos h]; decide

theorem dir_signs_ne_sentinel (ct : coordinate_type) (dc : Nat) (s : segment) (hdc : 0 < dc) :
    dir_signs ct dc s ≠ List.replicate dc (-99) := by
  intro h
  have h1 := dir_signs_getD ct dc s 0 hdc
  rw [h] at h1
  have h2 : (List.replicate dc (-99 : Int)).getD 0 0 = -99 := by
    rw [List.getD_eq_getElem _ _ (by simpa using hdc)]
    simp
  rw [h2] at h1
  exact sign_ne_sentinel _ h1.symm

theorem classify_snd_eq_of_fst_eq (ct : coordinate_type) (dc pd : Nat)
    (equals : Int → Int → Bool) (a b : segment)
    (hdc : 0 < dc) (h : (classify ct dc pd equals a).1 = (classify ct dc pd equals b).1) :
    (classify ct dc pd equals a).2 = (classify ct dc pd equals b).2 := by
  cases ha : (classify ct dc pd equals a).2 <;> cases hb : (classify ct dc pd equals b).2
  · rfl
  · rw [classify_of_not_duplicate _ _ _ _ _ ha, classify_of_duplicate _ _ _ _ _ hb] at h
    exact absurd h (dir_signs_ne_sentinel ct dc a hdc)
  · rw [classify_of_duplicate _ _ _ _ _ ha, classify_of_not_duplicate _ _ _ _ _ hb] at h
    exact absurd h.symm (dir_signs_ne_sentinel ct dc b hdc)
  · rfl

/-! ## The three ways one iteration can go -/

theorem loop_body_start (ct : coordinate_type) (dc pd MaxCount : Nat)
    (equals : Int → Int → Bool) (r m : Int)
    (n : Nat) (st : loop_state) (previous it : Point) (h : st.sec = Section.new dc) :
    loop_body ct dc pd MaxCount equals r m n st previous it =
      { sections := st.sections
        sec := fresh_section ct dc pd equals r m n st.i st.ndi previous it
        i := st.i + 1
        ndi := if !(classify ct dc pd equals ⟨previous, it⟩).2 then st.ndi + 1 else st.ndi } := by
  have hlen := classify_fst_length ct dc pd equals ⟨previous, it⟩
  simp [loop_body, h, Section.new, fresh_section, copy_loop_eq _ _ dc hlen]

theorem loop_body_flush (ct : coordinate_type) (dc pd MaxCount : Nat)
    (equals : Int → Int → Bool) (r m : Int)
    (n : Nat) (st : loop_state) (previous it : Point) (hc : 0 < st.sec.count)
    (hlen : st.sec.directions.length = dc)
    (h : (classify ct dc pd equals ⟨previous, it⟩).1 ≠ st.sec.directions ∨ MaxCount < st.sec.count)
        :
    loop_body ct dc pd MaxCount equals r m n st previous it =
      { sections := st.sections ++ [st.sec]
        sec := fresh_section ct dc pd equals r m n st.i st.ndi previous it
        i := st.i + 1
        ndi := if !(classify ct dc pd equals ⟨previous, it⟩).2 then st.ndi + 1 else st.ndi } := by
  have hl := classify_fst_length ct dc pd equals ⟨previous, it⟩
  have hflush : (decide (st.sec.count > 0)
      && (!(compare_loop (classify ct dc pd equals ⟨previous, it⟩).1 st.sec.directions dc 0)
          || decide (st.sec.count > MaxCount))) = true := by
    rcases h with h | h
    · have : compare_loop (classify ct dc pd equals ⟨previous, it⟩).1 st.sec.directions dc 0
          = false := by
        rw [Bool.eq_false_iff, Ne, compare_loop_eq_iff _ _ dc hl hlen]
        exact fun e => h e.symm
      simp [hc, this]
    · simp [hc, h]
  simp only [loop_body, hflush, if_true]
  simp [Section.new, fresh_section, copy_loop_eq _ _ dc hl]

theorem loop_body_extend (ct : coordinate_type) (dc pd MaxCount : Nat)
    (equals : Int → Int → Bool) (r m : Int)
    (n : Nat) (st : loop_state) (previous it : Point) (hc : 0 < st.sec.count)
    (hlen : st.sec.directions.length = dc)
    (h1 : (classify ct dc pd equals ⟨previous, it⟩).1 = st.sec.directions)
    (h2 : st.sec.count ≤ MaxCount) :
    loop_body ct dc pd MaxCount equals r m n st previous it =
      { sections := st.sections
        sec := { st.sec with
                 bounding_box := combine st.sec.bounding_box it
                 end_index := st.i + 1
                 count := st.sec.count + 1 }
        i := st.i + 1
        ndi := if !(classify ct dc pd equals ⟨previous, it⟩).2 then st.ndi + 1 else st.ndi } := by
  have hl := classify_fst_length ct dc pd equals ⟨previous, it⟩
  have hcmp : compare_loop (classify ct dc pd equals ⟨previous, it⟩).1 st.sec.directions dc 0
      = true := by
    rw [compare_loop_eq_iff _ _ dc hl hlen]
    exact h1.symm
  have hflush : (decide (st.sec.count > 0)
      && (!(compare_loop (classify ct dc pd equals ⟨previous, it⟩).1 st.sec.directions dc 0)
          || decide (st.sec.count > MaxCount))) = false := by
    simp [hcmp, not_lt.mpr h2]
  have hne : st.sec.count ≠ 0 := by omega
  simp only [loop_body, hflush, Bool.false_eq_true, if_false, hne]

/-! ## What every emitted section records -/

theorem SecOK.dup {ct : coordinate_type} {dc pd MaxCount : Nat} {equals : Int → Int → Bool} {range
    : List Point}
    {r m : Int} {s : Section} (h : SecOK ct dc pd MaxCount equals range r m s) (hdc : 0 < dc)
    (j : Nat) (h1 : s.begin_index ≤ j) (h2 : (j : Int) < s.end_index) :
    (classify ct dc pd equals (edge_at range j)).2 = s.duplicate := by
  have hb : s.begin_index = (s.begin_index.toNat : Int) := (Int.toNat_of_nonneg h.begin_nonneg).symm
  rw [← h.dup_first _ hb]
  apply classify_snd_eq_of_fst_eq _ _ _ _ _ _ hdc
  rw [h.dirs j h1 h2, h.dirs _ (le_of_eq hb) (by have := h.begin_lt_end; omega)]

theorem nondup_before_succ (ct : coordinate_type) (dc pd : Nat)
    (equals : Int → Int → Bool) (range : List Point)
    (k : Nat) :
    ((if !(classify ct dc pd equals (edge_at range k)).2
        then (nondup_before ct dc pd equals range k : Int) + 1
        else (nondup_before ct dc pd equals range k : Int))
      = (nondup_before ct dc pd equals range (k + 1) : Int)) := by
  unfold nondup_before
  rw [List.range_succ, List.countP_append]
  cases h : (classify ct dc pd equals (edge_at range k)).2 <;> simp [h]

theorem get_zipWith_min (a b : List Int) (d : Nat) (ha : d < a.length) (hb : d < b.length) :
    get (List.zipWith min a b) d = min (get a d) (get b d) := by
  unfold get
  rw [List.getD_eq_getElem _ _ ha, List.getD_eq_getElem _ _ hb,
    List.getD_eq_getElem _ _ (by simp [ha, hb])]
  simp

theorem get_zipWith_max (a b : List Int) (d : Nat) (ha : d < a.length) (hb : d < b.length) :
    get (List.zipWith max a b) d = max (get a d) (get b d) := by
  unfold get
  rw [List.getD_eq_getElem _ _ ha, List.getD_eq_getElem _ _ hb,
    List.getD_eq_getElem _ _ (by simp [ha, hb])]
  simp

theorem IsBBox_single (pd : Nat) (range : List Point) (k : Nat)
    (hp : (range.getD k []).length = pd) :
    IsBBox pd range k k (combine assign_inverse (range.getD k [])) := by
  refine ⟨⟨range.getD k [], range.getD k []⟩, rfl, hp, hp, ?_⟩
  intro d _
  refine ⟨?_, ⟨k, le_rfl, le_rfl, rfl⟩, ⟨k, le_rfl, le_rfl, rfl⟩⟩
  intro j h1 h2
  have : j = k := by omega
  subst this
  exact ⟨le_rfl, le_rfl⟩

theorem IsBBox_extend (pd : Nat) (range : List Point) (b : Int) (k : Nat) (bb : Box)
    (h : IsBBox pd range b k bb) (hp : (range.getD (k + 1) []).length = pd) :
    IsBBox pd range b ((k : Int) + 1) (combine bb (range.getD (k + 1) [])) := by
  obtain ⟨bx, rfl, hmin, hmax, hall⟩ := h
  refine ⟨_, rfl, ?_, ?_, ?_⟩
  · show (List.zipWith min bx.min_corner _).length = pd
    rw [List.length_zipWith, hmin, hp, min_self]
  · show (List.zipWith max bx.max_corner _).length = pd
    rw [List.length_zipWith, hmax, hp, min_self]
  intro d hd
  obtain ⟨hbound, ⟨jmin, hj1, hj2, hjmin⟩, ⟨jmax, hk1, hk2, hjmax⟩⟩ := hall d hd
  have e1 := get_zipWith_min bx.min_corner (range.getD (k + 1) []) d (by omega) (by omega)
  have e2 := get_zipWith_max bx.max_corner (range.getD (k + 1) []) d (by omega) (by omega)
  simp only [e1, e2]
  refine ⟨?_, ?_, ?_⟩
  · intro j h1 h2
    by_cases hj : (j : Int) ≤ k
    · have := hbound j h1 hj
      exact ⟨le_trans (min_le_left _ _) this.1, le_trans this.2 (le_max_left _ _)⟩
    · have : j = k + 1 := by omega
      subst this
      exact ⟨min_le_right _ _, le_max_right _ _⟩
  · rcases min_choice (get bx.min_corner d) (get (range.getD (k + 1) []) d) with hc | hc
    · exact ⟨jmin, hj1, by omega, by rw [hc]; exact hjmin⟩
    · exact ⟨k + 1, by omega, by push_cast; omega, by rw [hc]⟩
  · rcases max_choice (get bx.max_corner d) (get (range.getD (k + 1) []) d) with hc | hc
    · exact ⟨jmax, hk1, by omega, by rw [hc]; exact hjmax⟩
    · exact ⟨k + 1, by omega, by push_cast; omega, by rw [hc]⟩

theorem getD_length_of_wf (pd : Nat) (range : List Point) (j : Nat)
    (hwf : ∀ p ∈ range, p.length = pd) (hj : j < range.length) :
    (range.getD j []).length = pd := by
  rw [List.getD_eq_getElem _ _ hj]
  exact hwf _ (List.getElem_mem _)

theorem SecOK_fresh (ct : coordinate_type) (dc pd MaxCount : Nat)
    (equals : Int → Int → Bool) (range : List Point)
    (r m : Int) (k : Nat) (hk : k + 1 < range.length) :
    SecOK ct dc pd MaxCount equals range r m
      (fresh_section ct dc pd equals r m range.length k (nondup_before ct dc pd equals range k)
        (range.getD k []) (range.getD (k + 1) [])) where
  begin_nonneg := by simp [fresh_section]
  begin_lt_end := by simp [fresh_section]
  end_lt_size := by simp only [fresh_section]; omega
  count_eq := by simp [fresh_section]
  count_le := by simp [fresh_section]
  dirs_len := classify_fst_length _ _ _ _ _
  dirs := by
    intro j h1 h2
    simp only [fresh_section] at h1 h2 ⊢
    have : j = k := by omega
    subst this
    rfl
  dup_first := by
    intro b hb
    simp only [fresh_section] at hb ⊢
    have : b = k := by omega
    subst this
    rfl
  ndi := by simp [fresh_section]
  range_count := rfl
  ring := rfl
  multi := rfl
  bbox := by
    intro hwf
    exact IsBBox_extend pd range k k _
      (IsBBox_single pd range k (getD_length_of_wf pd range k hwf (by omega)))
      (getD_length_of_wf pd range (k + 1) hwf hk)

theorem SecOK_extend (ct : coordinate_type) (dc pd MaxCount : Nat)
    (equals : Int → Int → Bool) (range : List Point)
    (r m : Int) (k : Nat) (sec : Section) (hk : k + 1 < range.length)
    (h : SecOK ct dc pd MaxCount equals range r m sec) (hend : sec.end_index = k)
    (h1 : (classify ct dc pd equals (edge_at range k)).1 = sec.directions)
    (h2 : sec.count ≤ MaxCount) :
    SecOK ct dc pd MaxCount equals range r m
      { sec with
        bounding_box := combine sec.bounding_box (range.getD (k + 1) [])
        end_index := (k : Int) + 1
        count := sec.count + 1 } where
  begin_nonneg := h.begin_nonneg
  begin_lt_end := by have := h.begin_lt_end; simp only; omega
  end_lt_size := by simp only; omega
  count_eq := by have := h.count_eq; simp only; push_cast; omega
  count_le := by simp only; omega
  dirs_len := h.dirs_len
  dirs := by
    intro j hj1 hj2
    simp only at hj1 hj2 ⊢
    by_cases hj : (j : Int) < sec.end_index
    · exact h.dirs j hj1 hj
    · have : j = k := by omega
      subst this
      exact h1
  dup_first := h.dup_first
  ndi := h.ndi
  range_count := h.range_count
  ring := h.ring
  multi := h.multi
  bbox := by
    intro hwf
    have hb := h.bbox hwf
    rw [hend] at hb
    exact IsBBox_extend pd range _ k _ hb (getD_length_of_wf pd range (k + 1) hwf hk)

theorem chain_replace_last {R : Section → Section → Prop} (l : List Section) (a a1 : Section)
    (h : List.Chain' R (l ++ [a])) (hR : ∀ x, R x a → R x a1) :
    List.Chain' R (l ++ [a1]) := by
  rw [List.chain'_append] at h ⊢
  refine ⟨h.1, List.chain'_singleton _, ?_⟩
  intro x hx y hy
  have hy1 : y = a1 := by simpa using hy.symm
  subst hy1
  exact hR x (h.2.2 x hx a (by simp))

theorem chain_snoc {R : Section → Section → Prop} (l : List Section) (a b : Section)
    (h : List.Chain' R (l ++ [a])) (hR : R a b) :
    List.Chain' R ((l ++ [a]) ++ [b]) := by
  rw [List.chain'_append]
  refine ⟨h, List.chain'_singleton _, ?_⟩
  intro x hx y hy
  have hx1 : x = a := by simpa using hx.symm
  have hy1 : y = b := by simpa using hy.symm
  subst hx1 hy1
  exact hR

theorem head_replace_last (l : List Section) (a a1 : Section)
    (hb : a1.begin_index = a.begin_index)
    (h : ∀ x ∈ (l ++ [a]).head?, x.begin_index = 0) :
    ∀ x ∈ (l ++ [a1]).head?, x.begin_index = 0 := by
  cases l with
  | nil =>
    intro x hx
    have hx1 : x = a1 := by simpa using hx.symm
    subst hx1
    rw [hb]
    exact h a (by simp)
  | cons y l1 =>
    intro x hx
    exact h x (by simpa using hx)

theorem head_snoc (l : List Section) (a b : Section)
    (h : ∀ x ∈ (l ++ [a]).head?, x.begin_index = 0) :
    ∀ x ∈ ((l ++ [a]) ++ [b]).head?, x.begin_index = 0 := by
  cases l with
  | nil =>
    intro x hx
    exact h x (by simpa using hx)
  | cons y l1 =>
    intro x hx
    exact h x (by simpa using hx)

theorem InvPos_step (ct : coordinate_type) (dc pd MaxCount : Nat)
    (equals : Int → Int → Bool) (range : List Point)
    (r m : Int) (S : List Section) (st : loop_state) (k : Nat)
    (hinv : InvPos ct dc pd MaxCount equals range r m S st k) (hk : k + 1 < range.length) :
    InvPos ct dc pd MaxCount equals range r m S
      (loop_body ct dc pd MaxCount equals r m range.length st
        (range.getD k []) (range.getD (k + 1) [])) (k + 1) := by
  obtain ⟨out, hS, hi, hndi, hend, hok, hchain, hhead⟩ := hinv
  have hsec : SecOK ct dc pd MaxCount equals range r m st.sec := hok _ (by simp)
  have hc : 0 < st.sec.count := by
    have h1 := hsec.count_eq
    have h2 := hsec.begin_lt_end
    omega
  have hndi1 : (if !(classify ct dc pd equals ⟨range.getD k [], range.getD (k + 1) []⟩).2
      then st.ndi + 1 else st.ndi) = (nondup_before ct dc pd equals range (k + 1) : Int) := by
    rw [hndi]
    exact nondup_before_succ ct dc pd equals range k
  by_cases h1 : (classify ct dc pd equals ⟨range.getD k [], range.getD (k + 1) []⟩).1
      = st.sec.directions
  · by_cases h2 : st.sec.count ≤ MaxCount
    · rw [loop_body_extend ct dc pd MaxCount equals r m _ st _ _ hc hsec.dirs_len h1 h2]
      have hnew := SecOK_extend ct dc pd MaxCount equals range r m k st.sec hk hsec hend h1 h2
      refine ⟨out, hS, by simp [hi], hndi1, by simp [hi], ?_, ?_, ?_⟩
      · intro s hs
        rw [List.mem_append] at hs
        rcases hs with hs | hs
        · exact hok s (List.mem_append_left _ hs)
        · have : s = _ := List.mem_singleton.mp hs
          subst this
          simp only [hi]
          exact hnew
      · exact chain_replace_last out st.sec _ hchain (fun x hx => hx)
      · exact head_replace_last out st.sec _ rfl hhead
    · have h3 : (classify ct dc pd equals ⟨range.getD k [], range.getD (k + 1) []⟩).1
          ≠ st.sec.directions ∨ MaxCount < st.sec.count := Or.inr (by omega)
      rw [loop_body_flush ct dc pd MaxCount equals r m _ st _ _ hc hsec.dirs_len h3]
      have hnew := SecOK_fresh ct dc pd MaxCount equals range r m k hk
      refine ⟨out ++ [st.sec], by simp [hS], by simp [hi], hndi1, by simp [fresh_section, hi],
        ?_, ?_, ?_⟩
      · intro s hs
        rw [List.mem_append] at hs
        rcases hs with hs | hs
        · exact hok s hs
        · have : s = _ := List.mem_singleton.mp hs
          subst this
          simp only [hi, hndi]
          exact hnew
      · refine chain_snoc out st.sec _ hchain ⟨?_, Or.inr ?_⟩
        · simp [fresh_section, hi, hend]
        · have := hsec.count_le
          omega
      · exact head_snoc out st.sec _ hhead
  · have h3 : (classify ct dc pd equals ⟨range.getD k [], range.getD (k + 1) []⟩).1
        ≠ st.sec.directions ∨ MaxCount < st.sec.count := Or.inl h1
    rw [loop_body_flush ct dc pd MaxCount equals r m _ st _ _ hc hsec.dirs_len h3]
    have hnew := SecOK_fresh ct dc pd MaxCount equals range r m k hk
    refine ⟨out ++ [st.sec], by simp [hS], by simp [hi], hndi1, by simp [fresh_section, hi],
      ?_, ?_, ?_⟩
    · intro s hs
      rw [List.mem_append] at hs
      rcases hs with hs | hs
      · exact hok s hs
      · have : s = _ := List.mem_singleton.mp hs
        subst this
        simp only [hi, hndi]
        exact hnew
    · refine chain_snoc out st.sec _ hchain ⟨?_, Or.inl ?_⟩
      · simp [fresh_section, hi, hend]
      · exact h1
    · exact head_snoc out st.sec _ hhead

theorem loop_inv (ct : coordinate_type) (dc pd MaxCount : Nat)
    (equals : Int → Int → Bool) (range : List Point)
    (r m : Int) (S : List Section) :
    ∀ (rest pre : List Point) (prev : Point) (st : loop_state),
      range = pre ++ prev :: rest →
      InvPos ct dc pd MaxCount equals range r m S st pre.length →
      InvPos ct dc pd MaxCount equals range r m S
        (loop ct dc pd MaxCount equals r m range.length st prev rest) (range.length - 1) := by
  intro rest
  induction rest with
  | nil =>
    intro pre prev st hr hinv
    have : range.length - 1 = pre.length := by simp [hr]
    rw [this]
    exact hinv
  | cons it rest1 ih =>
    intro pre prev st hr hinv
    have hlen : pre.length + 1 < range.length := by simp [hr]
    have hprev : range.getD pre.length [] = prev := by
      rw [hr, List.getD_eq_getElem?_getD, List.getElem?_append_right (le_refl _)]
      simp
    have hit : range.getD (pre.length + 1) [] = it := by
      rw [hr, List.getD_eq_getElem?_getD, List.getElem?_append_right (by omega)]
      simp
    have hstep := InvPos_step ct dc pd MaxCount equals range r m S st pre.length hinv hlen
    rw [hprev, hit] at hstep
    have := ih (pre ++ [prev]) it _ (by simp [hr]) (by simpa using hstep)
    simpa [loop] using this

theorem sectionalize_range_cons_cons (ct : coordinate_type) (dc pd MaxCount : Nat)
    (equals : Int → Int → Bool)
    (p0 p1 : Point) (rest : List Point) (S : List Section) (r m : Int) :
    sectionalize_range ct dc pd MaxCount equals (p0 :: p1 :: rest) S r m =
      if (loop ct dc pd MaxCount equals r m (p0 :: p1 :: rest).length
          ⟨S, Section.new dc, 0, 0⟩ p0 (p1 :: rest)).sec.count > 0
      then (loop ct dc pd MaxCount equals r m (p0 :: p1 :: rest).length
          ⟨S, Section.new dc, 0, 0⟩ p0 (p1 :: rest)).sections
        ++ [(loop ct dc pd MaxCount equals r m (p0 :: p1 :: rest).length
          ⟨S, Section.new dc, 0, 0⟩ p0 (p1 :: rest)).sec]
      else (loop ct dc pd MaxCount equals r m (p0 :: p1 :: rest).length
          ⟨S, Section.new dc, 0, 0⟩ p0 (p1 :: rest)).sections := by
  simp [sectionalize_range]

/-- The sections one call of `sectionalize_range` appends for a range of at least
two points: a non-empty chain of well-described sections from edge `0` to the
last edge. -/
theorem sectionalize_range_spec (ct : coordinate_type) (dc pd MaxCount : Nat)
    (equals : Int → Int → Bool)
    (range : List Point) (S : List Section) (r m : Int) (hN : 2 ≤ range.length) :
    ∃ P, sectionalize_range ct dc pd MaxCount equals range S r m = S ++ P ∧ P ≠ [] ∧
      (∀ s ∈ P, SecOK ct dc pd MaxCount equals range r m s) ∧
      List.Chain' (Adj MaxCount) P ∧
      (∀ x ∈ P.head?, x.begin_index = 0) ∧
      (∀ x ∈ P.getLast?, x.end_index = (range.length : Int) - 1) := by
  match range, hN with
  | p0 :: p1 :: rest, _ =>
    have h0 : InvPos ct dc pd MaxCount equals (p0 :: p1 :: rest) r m S
        (loop_body ct dc pd MaxCount equals r m (p0 :: p1 :: rest).length
          ⟨S, Section.new dc, 0, 0⟩ p0 p1) 1 := by
      rw [loop_body_start ct dc pd MaxCount equals r m _ _ p0 p1 rfl]
      have hnew := SecOK_fresh ct dc pd MaxCount equals (p0 :: p1 :: rest) r m 0 (by simp)
      refine ⟨[], by simp, by simp, ?_, by simp [fresh_section], ?_, ?_, ?_⟩
      · exact nondup_before_succ ct dc pd equals (p0 :: p1 :: rest) 0
      · intro s hs
        rw [List.nil_append, List.mem_singleton] at hs
        subst hs
        exact hnew
      · simp
      · intro x hx
        rw [List.nil_append, List.head?_cons, Option.mem_def, Option.some.injEq] at hx
        subst hx
        rfl
    have hfin := loop_inv ct dc pd MaxCount equals (p0 :: p1 :: rest) r m S rest [p0] p1 _ rfl h0
    obtain ⟨out, hS, _, _, hend, hok, hchain, hhead⟩ := hfin
    have hsec := hok _ (List.mem_append_right _ (List.mem_singleton_self _))
    have hc : 0 < (loop ct dc pd MaxCount equals r m (p0 :: p1 :: rest).length
        (loop_body ct dc pd MaxCount equals r m (p0 :: p1 :: rest).length
          ⟨S, Section.new dc, 0, 0⟩ p0 p1) p1 rest).sec.count := by
      have h1 := hsec.count_eq
      have h2 := hsec.begin_lt_end
      omega
    refine ⟨out ++ [_], ?_, by simp, hok, hchain, hhead, ?_⟩
    · rw [sectionalize_range_cons_cons]
      simp only [loop]
      rw [if_pos hc, hS, List.append_assoc]
    · intro x hx
      rw [List.getLast?_concat, Option.mem_def, Option.some.injEq] at hx
      subst hx
      rw [hend]
      simp

theorem sectionalize_range_short (ct : coordinate_type) (dc pd MaxCount : Nat)
    (equals : Int → Int → Bool)
    (range : List Point) (S : List Section) (r m : Int) (h : range.length ≤ 1) :
    sectionalize_range ct dc pd MaxCount equals range S r m = S := by
  match range, h with
  | [], _ => simp [sectionalize_range]
  | [p], _ => simp [sectionalize_range]

/-- Whatever the range, a call appends sections that are each well described and
are chained to one another. -/
theorem sectionalize_range_appended (ct : coordinate_type) (dc pd MaxCount : Nat)
    (equals : Int → Int → Bool)
    (range : List Point) (S : List Section) (r m : Int) :
    ∃ P, sectionalize_range ct dc pd MaxCount equals range S r m = S ++ P ∧
      (∀ s ∈ P, SecOK ct dc pd MaxCount equals range r m s) ∧
      List.Chain' (Adj MaxCount) P := by
  by_cases h : 2 ≤ range.length
  · obtain ⟨P, h1, _, h2, h3, _⟩ := sectionalize_range_spec ct dc pd MaxCount equals range S r m h
    exact ⟨P, h1, h2, h3⟩
  · refine ⟨[], ?_, by simp, List.chain'_nil⟩
    rw [sectionalize_range_short ct dc pd MaxCount equals range S r m (by omega)]
    simp

/-! ## Chains of sections -/

theorem chain_begin_le (l : List Section) :
    ∀ (s : Section), List.Chain' (fun a b : Section => a.end_index = b.begin_index) (s :: l) →
      (∀ x ∈ s :: l, x.begin_index < x.end_index) →
      ∀ t ∈ l, s.end_index ≤ t.begin_index := by
  induction l with
  | nil => intro s _ _ t ht; cases ht
  | cons u l1 ih =>
    intro s hch hlt t ht
    rw [List.chain'_cons] at hch
    rcases List.mem_cons.mp ht with h | h
    · subst h; exact le_of_eq hch.1
    · have h1 := ih u hch.2 (fun x hx => hlt x (List.mem_cons_of_mem _ hx)) t h
      have h2 := hlt u (by simp)
      omega

theorem chain_pairwise (l : List Section)
    (hch : List.Chain' (fun a b : Section => a.end_index = b.begin_index) l)
    (hlt : ∀ x ∈ l, x.begin_index < x.end_index) :
    List.Pairwise (fun a b : Section => a.end_index ≤ b.begin_index) l := by
  induction l with
  | nil => exact List.Pairwise.nil
  | cons s l1 ih =>
    refine List.Pairwise.cons (chain_begin_le l1 s hch hlt) ?_
    exact ih (List.Chain'.tail hch) (fun x hx => hlt x (List.mem_cons_of_mem _ hx))

theorem chain_covers_once (l : List Section) :
    ∀ (s : Section) (b j : Int),
      List.Chain' (fun a b : Section => a.end_index = b.begin_index) (s :: l) →
      (∀ x ∈ s :: l, x.begin_index < x.end_index) →
      (∀ x ∈ (s :: l).getLast?, x.end_index = b) →
      s.begin_index ≤ j → j < b → (s :: l).countP (covers j) = 1 := by
  induction l with
  | nil =>
    intro s b j _ _ hlast h1 h2
    have hb : s.end_index = b := hlast s (by simp)
    simp [covers, h1, hb, h2]
  | cons u l1 ih =>
    intro s b j hch hlt hlast h1 h2
    have hch1 := List.chain'_cons.mp hch
    have hlt1 : ∀ x ∈ u :: l1, x.begin_index < x.end_index :=
      fun x hx => hlt x (List.mem_cons_of_mem _ hx)
    by_cases hj : j < s.end_index
    · have hzero : (u :: l1).countP (covers j) = 0 := by
        rw [List.countP_eq_zero]
        intro t ht
        have h3 := chain_begin_le (u :: l1) s hch hlt t ht
        simp only [covers, decide_eq_true_eq, not_and, not_lt]
        intro h4
        omega
      rw [List.countP_cons, hzero]
      simp [covers, h1, hj]
    · have hlast1 : ∀ x ∈ (u :: l1).getLast?, x.end_index = b := by
        intro x hx
        exact hlast x (by rwa [List.getLast?_cons_cons])
      have h3 := ih u b j hch1.2 hlt1 hlast1 (by omega) h2
      rw [List.countP_cons, h3]
      simp [covers, hj]

theorem chain_adjacent {R : Section → Section → Prop} (pre post : List Section)
    (s t : Section) (h : List.Chain' R (pre ++ s :: t :: post)) : R s t := by
  rw [List.chain'_append] at h
  exact (List.chain'_cons.mp h.2.1).1

theorem Adj_chain_ends (MaxCount : Nat) (l : List Section)
    (h : List.Chain' (Adj MaxCount) l) :
    List.Chain' (fun a b : Section => a.end_index = b.begin_index) l :=
  List.Chain'.imp (fun _ _ hab => hab.1) h

theorem chain_find (l : List Section) :
    ∀ (s : Section) (b j : Int),
      List.Chain' (fun a b : Section => a.end_index = b.begin_index) (s :: l) →
      (∀ x ∈ (s :: l).getLast?, x.end_index = b) →
      s.begin_index ≤ j → j < b →
      ∃ pre t post, s :: l = pre ++ t :: post ∧ t.begin_index ≤ j ∧ j < t.end_index := by
  induction l with
  | nil =>
    intro s b j _ hlast h1 h2
    have hb : s.end_index = b := hlast s (by simp)
    exact ⟨[], s, [], rfl, h1, by omega⟩
  | cons u l1 ih =>
    intro s b j hch hlast h1 h2
    have hch1 := List.chain'_cons.mp hch
    by_cases hj : j < s.end_index
    · exact ⟨[], s, u :: l1, rfl, h1, hj⟩
    · have hlast1 : ∀ x ∈ (u :: l1).getLast?, x.end_index = b := by
        intro x hx
        exact hlast x (by rwa [List.getLast?_cons_cons])
      obtain ⟨pre, t, post, he, h3, h4⟩ := ih u b j hch1.2 hlast1 (by omega) h2
      exact ⟨s :: pre, t, post, by rw [he]; rfl, h3, h4⟩

theorem exists_axis_of_ne (dc : Nat) (a b : List Int) (ha : a.length = dc)
    (hb : b.length = dc) (h : a ≠ b) : ∃ d, d < dc ∧ a.getD d 0 ≠ b.getD d 0 := by
  by_contra hcon
  push_neg at hcon
  apply h
  apply List.ext_getElem (by omega)
  intro n h1 h2
  have := hcon n (by omega)
  rwa [List.getD_eq_getElem _ _ h1, List.getD_eq_getElem _ _ h2] at this

theorem classify_snd_eq_check (ct : coordinate_type) (dc pd : Nat)
    (equals : Int → Int → Bool) (s : segment)
    (hle : dc ≤ pd) (hEq : ∀ x, equals x 0 = true ↔ x = 0) :
    (classify ct dc pd equals s).2 = check_duplicate_loop ct equals s pd 0 := by
  rw [classify_eq]
  by_cases hc : check_duplicate_loop ct equals s pd 0 = true
  · have h0 : (dir_signs ct dc s).getD 0 0 = 0 := by
      by_cases hdc : 0 < dc
      · rw [dir_signs_getD ct dc s 0 hdc, Int.sign_eq_zero_iff_zero]
        rw [check_duplicate_loop_iff] at hc
        exact (hEq _).mp (hc 0 le_rfl (by omega))
      · have : dc = 0 := by omega
        subst this
        rfl
    rw [if_pos ⟨h0, hc⟩, hc]
  · rw [if_neg (fun h => hc h.2)]
    exact (Bool.eq_false_iff.mpr hc).symm

theorem check_duplicate_iff_degenerate (ct : coordinate_type) (pd : Nat)
    (equals : Int → Int → Bool) (s : segment) (hEq : ∀ x, equals x 0 = true ↔ x = 0)
    (hp : ∀ c ∈ s.first, representable ct c) (hq : ∀ c ∈ s.second, representable ct c) :
    check_duplicate_loop ct equals s pd 0 = true ↔ degenerate pd s := by
  have hz : ∀ d, ct.minus (get s.second d) (get s.first d) = 0
      ↔ get s.second d = get s.first d :=
    fun d => minus_eq_zero_iff ct _ _ (representable_get ct _ d hq) (representable_get ct _ d hp)
  rw [check_duplicate_loop_iff]
  constructor
  · intro h d hd
    exact (hz d).mp ((hEq _).mp (h d (Nat.zero_le _) (by omega)))
  · intro h d _ hd
    rw [hEq]
    exact (hz d).mpr (h d (by omega))

theorem classify_snd_iff_degenerate (ct : coordinate_type) (dc pd : Nat)
    (equals : Int → Int → Bool) (s : segment)
    (hle : dc ≤ pd) (hEq : ∀ x, equals x 0 = true ↔ x = 0)
    (hp : ∀ c ∈ s.first, representable ct c) (hq : ∀ c ∈ s.second, representable ct c) :
    (classify ct dc pd equals s).2 = true ↔ degenerate pd s := by
  rw [classify_snd_eq_check ct dc pd equals s hle hEq,
    check_duplicate_iff_degenerate ct pd equals s hEq hp hq]

theorem classify_edge_iff_degenerate (ct : coordinate_type) (dc pd : Nat)
    (equals : Int → Int → Bool) (range : List Point) (j : Nat)
    (hle : dc ≤ pd) (hEq : ∀ x, equals x 0 = true ↔ x = 0)
    (hrep : ∀ p ∈ range, ∀ c ∈ p, representable ct c) :
    (classify ct dc pd equals (edge_at range j)).2 = true ↔ degenerate pd (edge_at range j) :=
  classify_snd_iff_degenerate ct dc pd equals (edge_at range j) hle hEq
    (edge_at_representable ct range j hrep) (edge_at_representable ct range (j + 1) hrep)

theorem sign_cases (x : Int) : Int.sign x = -1 ∨ Int.sign x = 0 ∨ Int.sign x = 1 := by
  rcases lt_trichotomy x 0 with h | h | h
  · exact Or.inl (Int.sign_eq_neg_one_of_neg h)
  · subst h; exact Or.inr (Or.inl rfl)
  · exact Or.inr (Or.inr (Int.sign_eq_one_of_pos h))

theorem equals_exact_iff (x : Int) : equals_exact x 0 = true ↔ x = 0 := by
  simp [equals_exact]

/-! ## The claims -/

/-- C1 (coverage and partition).  For a range of `N ≥ 2` points, any cap and any
prior content `S` of the collection, the sections `P` the call appends are such
that: the first starts at index `0`, the last ends at `N - 1`, each section ends
where the next begins, every section has `begin_index < end_index`, the ranges
are ascending and disjoint, and every edge index of `[0, N - 1)` lies in the
half-open range of exactly one section. -/
theorem sectionalize_range_partition (ct : coordinate_type) (dc pd MaxCount : Nat)
    (equals : Int → Int → Bool)
    (range : List Point) (S : List Section) (r m : Int) (hN : 2 ≤ range.length) :
    ∃ P, sectionalize_range ct dc pd MaxCount equals range S r m = S ++ P ∧
      (∃ first, P.head? = some first ∧ first.begin_index = 0) ∧
      (∃ last, P.getLast? = some last ∧ last.end_index = (range.length : Int) - 1) ∧
      List.Chain' (fun s t : Section => s.end_index = t.begin_index) P ∧
      (∀ s ∈ P, s.begin_index < s.end_index) ∧
      List.Pairwise (fun s t : Section => s.end_index ≤ t.begin_index) P ∧
      (∀ j : Int, 0 ≤ j → j < (range.length : Int) - 1 → P.countP (covers j) = 1) := by
  obtain ⟨P, hP, hne, hok, hchain, hhead, hlast⟩ :=
    sectionalize_range_spec ct dc pd MaxCount equals range S r m hN
  have hch := Adj_chain_ends MaxCount P hchain
  have hlt : ∀ s ∈ P, s.begin_index < s.end_index := fun s hs => (hok s hs).begin_lt_end
  refine ⟨P, hP, ?_, ?_, hch, hlt, chain_pairwise P hch hlt, ?_⟩
  · cases P with
    | nil => exact absurd rfl hne
    | cons s l => exact ⟨s, rfl, hhead s (by simp)⟩
  · obtain ⟨x, hx⟩ := Option.ne_none_iff_exists'.mp
      (fun h => hne (List.getLast?_eq_none_iff.mp h))
    exact ⟨x, hx, hlast x hx⟩
  · intro j h1 h2
    cases P with
    | nil => exact absurd rfl hne
    | cons s l =>
      have hs0 : s.begin_index = 0 := hhead s (by simp)
      exact chain_covers_once l s _ j hch hlt hlast (by omega) h2

theorem sectionalize_range_partition_witness :
    2 ≤ staircase.length ∧
    ∃ P, sectionalize_range coordinate_type.exact 2 2 10 equals_exact staircase [] (-1) (-1) = []
        ++ P ∧
      (∃ first, P.head? = some first ∧ first.begin_index = 0) ∧
      (∃ last, P.getLast? = some last ∧ last.end_index = (staircase.length : Int) - 1) ∧
      List.Chain' (fun s t : Section => s.end_index = t.begin_index) P ∧
      (∀ s ∈ P, s.begin_index < s.end_index) ∧
      List.Pairwise (fun s t : Section => s.end_index ≤ t.begin_index) P ∧
      (∀ j : Int, 0 ≤ j → j < (staircase.length : Int) - 1 → P.countP (covers j) = 1) :=
  ⟨by decide, sectionalize_range_partition coordinate_type.exact 2 2 10 equals_exact staircase []
      (-1) (-1) (by decide)⟩

/-- C3 (bounding box).  For every range whose points all have `pd` coordinates and
every appended section, `bounding_box` is the smallest axis-aligned box around
the points at positions `begin_index, ..., end_index` (both included): on each
axis the minimum corner is the minimum and the maximum corner is the maximum of
those points' coordinates. -/
theorem bounding_box_minimal (ct : coordinate_type) (dc pd MaxCount : Nat)
    (equals : Int → Int → Bool)
    (range : List Point) (S : List Section) (r m : Int)
    (hwf : ∀ p ∈ range, p.length = pd) :
    ∃ P, sectionalize_range ct dc pd MaxCount equals range S r m = S ++ P ∧
      ∀ s ∈ P, ∃ bx, s.bounding_box = some bx ∧
        bx.min_corner.length = pd ∧ bx.max_corner.length = pd ∧
        ∀ d, d < pd →
          (∀ j : Nat, s.begin_index ≤ (j : Int) → (j : Int) ≤ s.end_index →
            get bx.min_corner d ≤ get (range.getD j []) d ∧
            get (range.getD j []) d ≤ get bx.max_corner d) ∧
          (∃ j : Nat, s.begin_index ≤ (j : Int) ∧ (j : Int) ≤ s.end_index ∧
            get (range.getD j []) d = get bx.min_corner d) ∧
          (∃ j : Nat, s.begin_index ≤ (j : Int) ∧ (j : Int) ≤ s.end_index ∧
            get (range.getD j []) d = get bx.max_corner d) := by
  obtain ⟨P, hP, hok, _⟩ := sectionalize_range_appended ct dc pd MaxCount equals range S r m
  exact ⟨P, hP, fun s hs => (hok s hs).bbox hwf⟩

theorem bounding_box_minimal_witness :
    (∀ p ∈ staircase, p.length = 2) ∧
    ∃ P, sectionalize_range coordinate_type.exact 2 2 10 equals_exact staircase [] (-1) (-1) = []
        ++ P ∧
      ∀ s ∈ P, ∃ bx, s.bounding_box = some bx ∧
        bx.min_corner.length = 2 ∧ bx.max_corner.length = 2 ∧
        ∀ d, d < 2 →
          (∀ j : Nat, s.begin_index ≤ (j : Int) → (j : Int) ≤ s.end_index →
            get bx.min_corner d ≤ get (staircase.getD j []) d ∧
            get (staircase.getD j []) d ≤ get bx.max_corner d) ∧
          (∃ j : Nat, s.begin_index ≤ (j : Int) ∧ (j : Int) ≤ s.end_index ∧
            get (staircase.getD j []) d = get bx.min_corner d) ∧
          (∃ j : Nat, s.begin_index ≤ (j : Int) ∧ (j : Int) ≤ s.end_index ∧
            get (staircase.getD j []) d = get bx.max_corner d) :=
  ⟨by decide, bounding_box_minimal coordinate_type.exact 2 2 10 equals_exact staircase [] (-1) (-1)
      (by decide)⟩

/-- C4 (cap respected).  For every range, cap and prior content `S`, every appended
section, duplicate or not, has `count ≤ MaxCount + 1`. -/
theorem count_le_cap_succ (ct : coordinate_type) (dc pd MaxCount : Nat) (equals : Int → Int → Bool)
    (range : List Point) (S : List Section) (r m : Int) :
    ∃ P, sectionalize_range ct dc pd MaxCount equals range S r m = S ++ P ∧
      ∀ s ∈ P, s.count ≤ MaxCount + 1 := by
  obtain ⟨P, hP, hok, _⟩ := sectionalize_range_appended ct dc pd MaxCount equals range S r m
  exact ⟨P, hP, fun s hs => (hok s hs).count_le⟩

/-- C5 (maximum of 10 segments per section), evaluated: the top-level `sectionalize`
of the linestring `(0,0), (1,0), ..., (11,0)` gives one single section, of 11
segments, one more than `max_segments_per_section = 10`. -/
theorem sectionalize_collinear12_count :
    (sectionalize coordinate_type.exact 2 2 equals_exact
        (Geometry.linestring collinear12) []).map
      (fun s => (s.begin_index, s.end_index, s.count)) = [(0, 11, 11)] := by
  decide

/-- C6 (empty input).  For a range of 0 or 1 points, `sectionalize_range` leaves the
collection as it was, and the top-level `sectionalize` of that range as a
linestring or as a ring gives the empty collection. -/
theorem empty_input_no_section (ct : coordinate_type) (dc pd MaxCount : Nat)
    (equals : Int → Int → Bool)
    (range : List Point) (S : List Section) (r m : Int) (h : range.length ≤ 1) :
    sectionalize_range ct dc pd MaxCount equals range S r m = S ∧
    sectionalize ct dc pd equals (Geometry.linestring range) S = [] ∧
    sectionalize ct dc pd equals (Geometry.ring range) S = [] := by
  refine ⟨sectionalize_range_short ct dc pd MaxCount equals range S r m h, ?_, ?_⟩
  · simp only [sectionalize, dispatch_sectionalize, clear]
    exact sectionalize_range_short _ _ _ _ _ _ _ _ _ h
  · simp only [sectionalize, dispatch_sectionalize, clear]
    exact sectionalize_range_short _ _ _ _ _ _ _ _ _ h

theorem empty_input_no_section_witness :
    ([[3, 4]] : List Point).length ≤ 1 ∧
    sectionalize_range coordinate_type.exact 2 2 10 equals_exact [[3, 4]] [Section.new 2] (-1) (-1)
      = [Section.new 2] ∧
    sectionalize coordinate_type.exact 2 2 equals_exact (Geometry.linestring [[3, 4]]) [Section.new
        2] = [] ∧
    sectionalize coordinate_type.exact 2 2 equals_exact (Geometry.ring [[3, 4]]) [Section.new 2] =
        [] :=
  ⟨by decide,
    empty_input_no_section coordinate_type.exact 2 2 10 equals_exact [[3, 4]] [Section.new 2] (-1)
        (-1) (by decide)⟩

/-- C7 (a direction change starts a new section at once).  For every range, cap and
prior content, and every edge index `i` with `1 ≤ i < N - 1` whose classification
(the direction vector, or the sentinel vector of a duplicate) differs from that
of edge `i - 1`: among the appended sections one begins at `i` and the one right
before it ends at `i`.  And the seven-point staircase, with `DimensionCount = 2`,
gives exactly the three sections `[0,2)`, `[2,4)`, `[4,6)` with directions
`(+1,0)`, `(0,+1)`, `(-1,0)`. -/
theorem direction_change_starts_section :
    (∀ (ct : coordinate_type) (dc pd MaxCount : Nat)
        (equals : Int → Int → Bool) (range : List Point)
        (S : List Section) (r m : Int) (i : Nat),
        1 ≤ i → i + 1 < range.length →
        (classify ct dc pd equals (edge_at range i)).1
          ≠ (classify ct dc pd equals (edge_at range (i - 1))).1 →
        ∃ pre s t post,
          sectionalize_range ct dc pd MaxCount equals range S r m = S ++ (pre ++ s :: t :: post) ∧
          s.end_index = (i : Int) ∧ t.begin_index = (i : Int)) ∧
    (sectionalize_range coordinate_type.exact 2 2 10 equals_exact staircase [] (-1) (-1)).map
        (fun s => (s.begin_index, s.end_index, s.directions))
      = [(0, 2, [1, 0]), (2, 4, [0, 1]), (4, 6, [-1, 0])] := by
  refine ⟨?_, by decide⟩
  intro ct dc pd MaxCount equals range S r m i hi1 hi2 hne
  obtain ⟨P, hP, hnil, hok, hchain, hhead, hlast⟩ :=
    sectionalize_range_spec ct dc pd MaxCount equals range S r m (by omega)
  have hch := Adj_chain_ends MaxCount P hchain
  cases P with
  | nil => exact absurd rfl hnil
  | cons s0 l =>
    have hs0 : s0.begin_index = 0 := hhead s0 (by simp)
    obtain ⟨pre, t, post, he, h3, h4⟩ :=
      chain_find l s0 _ (i : Int) hch hlast (by omega) (by omega)
    have ht := hok t (by rw [he]; simp)
    have htb : t.begin_index = (i : Int) := by
      by_contra hcon
      apply hne
      have e1 := ht.dirs i h3 h4
      have e2 := ht.dirs (i - 1) (by omega) (by omega)
      rw [e1, e2]
    rcases List.eq_nil_or_concat pre with hpre | ⟨pre1, s, hpre⟩
    · subst hpre
      have : s0 = t := (List.cons.inj he).1
      subst this
      omega
    · subst hpre
      have he1 : s0 :: l = pre1 ++ s :: t :: post := by simp [he]
      refine ⟨pre1, s, t, post, by rw [hP, he1], ?_, htb⟩
      rw [he1] at hch
      rw [chain_adjacent pre1 post s t hch, htb]

theorem direction_change_starts_section_witness :
    1 ≤ 2 ∧ 2 + 1 < staircase.length ∧
    (classify coordinate_type.exact 2 2 equals_exact (edge_at staircase 2)).1
      ≠ (classify coordinate_type.exact 2 2 equals_exact (edge_at staircase (2 - 1))).1 ∧
    ∃ pre s t post,
      sectionalize_range coordinate_type.exact 2 2 10 equals_exact staircase [] (-1) (-1)
        = [] ++ (pre ++ s :: t :: post) ∧
      s.end_index = ((2 : Nat) : Int) ∧ t.begin_index = ((2 : Nat) : Int) :=
  ⟨by decide, by decide, by decide,
    direction_change_starts_section.1 coordinate_type.exact 2 2 10 equals_exact staircase [] (-1)
        (-1) 2
      (by decide) (by decide) (by decide)⟩

/-- C8 (sections are maximal runs).  For every range, cap and prior content and any
two sections `s`, `t` appended one right after the other: `s.directions` and
`t.directions` differ on some axis, or `s` holds `MaxCount + 1` edges.  In terms
of the edges: `t` begins at an edge `i ≥ 1` whose classification differs from
that of edge `i - 1`, or `s` holds `MaxCount + 1` edges; so no split happens
between two edges of equal classification while the section holds at most
`MaxCount` edges. -/
theorem sections_maximal (ct : coordinate_type) (dc pd MaxCount : Nat) (equals : Int → Int → Bool)
    (range : List Point) (S : List Section) (r m : Int)
    (pre post : List Section) (s t : Section)
    (h : sectionalize_range ct dc pd MaxCount equals range S r m = S ++ (pre ++ s :: t :: post)) :
    ((∃ d, d < dc ∧ s.directions.getD d 0 ≠ t.directions.getD d 0) ∨ s.count = MaxCount + 1) ∧
    (∃ i : Nat, t.begin_index = (i : Int) ∧ 1 ≤ i ∧
      ((classify ct dc pd equals (edge_at range i)).1
          ≠ (classify ct dc pd equals (edge_at range (i - 1))).1
        ∨ s.count = MaxCount + 1)) := by
  obtain ⟨P, hP, hok, hchain⟩ := sectionalize_range_appended ct dc pd MaxCount equals range S r m
  have hPe : P = pre ++ s :: t :: post := List.append_cancel_left (hP.symm.trans h)
  subst hPe
  have hadj := chain_adjacent pre post s t hchain
  have hs := hok s (by simp)
  have ht := hok t (by simp)
  have hsb := hs.begin_nonneg
  have hse := hs.begin_lt_end
  have hte := ht.begin_lt_end
  have hst := hadj.1
  constructor
  · rcases hadj.2 with hd | hc
    · left
      exact exists_axis_of_ne dc _ _ hs.dirs_len ht.dirs_len (fun e => hd e.symm)
    · right; exact hc
  · refine ⟨t.begin_index.toNat, by omega, by omega, ?_⟩
    rcases hadj.2 with hd | hc
    · left
      rw [ht.dirs t.begin_index.toNat (by omega) (by omega),
        hs.dirs (t.begin_index.toNat - 1) (by omega) (by omega)]
      exact hd
    · right; exact hc

theorem sections_maximal_witness :
    sectionalize_range coordinate_type.exact 2 2 10 equals_exact staircase [] (-1) (-1)
      = [] ++ ([] ++
        (⟨[1, 0], -1, -1, some ⟨[0, 0], [2, 0]⟩, 0, 2, 2, 7, false, 0⟩ : Section)
        :: (⟨[0, 1], -1, -1, some ⟨[2, 0], [2, 2]⟩, 2, 4, 2, 7, false, 2⟩ : Section)
        :: [(⟨[-1, 0], -1, -1, some ⟨[0, 2], [2, 2]⟩, 4, 6, 2, 7, false, 4⟩ : Section)]) ∧
    ((∃ d, d < 2 ∧ ([1, 0] : List Int).getD d 0 ≠ ([0, 1] : List Int).getD d 0) ∨ 2 = 10 + 1) ∧
    (∃ i : Nat, (2 : Int) = (i : Int) ∧ 1 ≤ i ∧
      ((classify coordinate_type.exact 2 2 equals_exact (edge_at staircase i)).1
          ≠ (classify coordinate_type.exact 2 2 equals_exact (edge_at staircase (i - 1))).1
        ∨ 2 = 10 + 1)) :=
  ⟨by decide,
    sections_maximal coordinate_type.exact 2 2 10 equals_exact staircase [] (-1) (-1) []
      [(⟨[-1, 0], -1, -1, some ⟨[0, 2], [2, 2]⟩, 4, 6, 2, 7, false, 4⟩ : Section)]
      ⟨[1, 0], -1, -1, some ⟨[0, 0], [2, 0]⟩, 0, 2, 2, 7, false, 0⟩
      ⟨[0, 1], -1, -1, some ⟨[2, 0], [2, 2]⟩, 2, 4, 2, 7, false, 2⟩ (by decide)⟩

/-- C9 (degeneracy is decided over every dimension of the point type).  With exact
coordinate equality (`equals x 0` holds exactly for `x = 0`),
`1 ≤ DimensionCount ≤ dimension<Point>` and endpoints whose coordinates the
coordinate type can hold, an edge is flagged duplicate if and
only if its endpoints agree in every one of the `pd` coordinate dimensions of
the point type, those beyond `DimensionCount` included; the flag is the answer
of `check_duplicate_loop` over all `pd` dimensions, so the gate on
`direction_classes[0] == 0` never changes it.  With 3-D points and
`DimensionCount = 2`, the edge `(0,0,0) -> (0,0,1)` gives one non-duplicate
section with directions `(0,0)` and `(0,0,0) -> (0,0,0)` gives one duplicate
section. -/
theorem duplicate_iff_all_dimensions :
    (∀ (ct : coordinate_type) (dc pd : Nat) (equals : Int → Int → Bool) (p q : Point),
        0 < dc → dc ≤ pd → (∀ x, equals x 0 = true ↔ x = 0) →
        (∀ c ∈ p, representable ct c) → (∀ c ∈ q, representable ct c) →
        ((classify ct dc pd equals ⟨p, q⟩).2 = true ↔ ∀ d, d < pd → get q d = get p d) ∧
        (classify ct dc pd equals ⟨p, q⟩).2 = check_duplicate_loop ct equals ⟨p, q⟩ pd 0) ∧
    (sectionalize_range coordinate_type.exact 2 3 10 equals_exact [[0, 0, 0], [0, 0, 1]] [] (-1)
        (-1)).map
        (fun s => (s.begin_index, s.end_index, s.duplicate, s.directions))
      = [(0, 1, false, [0, 0])] ∧
    (sectionalize_range coordinate_type.exact 2 3 10 equals_exact [[0, 0, 0], [0, 0, 0]] [] (-1)
        (-1)).map
        (fun s => (s.begin_index, s.end_index, s.duplicate, s.directions))
      = [(0, 1, true, [-99, -99])] := by
  refine ⟨?_, by decide, by decide⟩
  intro ct dc pd equals p q _ hle hEq hp hq
  exact ⟨classify_snd_iff_degenerate ct dc pd equals ⟨p, q⟩ hle hEq hp hq,
    classify_snd_eq_check ct dc pd equals ⟨p, q⟩ hle hEq⟩

theorem duplicate_iff_all_dimensions_witness :
    0 < 2 ∧ 2 ≤ 3 ∧ (∀ x, equals_exact x 0 = true ↔ x = 0) ∧
    (∀ c ∈ ([0, 0, 0] : Point), representable (coordinate_type.int 32) c) ∧
    (∀ c ∈ ([0, 0, 1] : Point), representable (coordinate_type.int 32) c) ∧
    ((classify (coordinate_type.int 32) 2 3 equals_exact ⟨[0, 0, 0], [0, 0, 1]⟩).2 = true
        ↔ ∀ d, d < 3 → get [0, 0, 1] d = get [0, 0, 0] d) ∧
    (classify (coordinate_type.int 32) 2 3 equals_exact ⟨[0, 0, 0], [0, 0, 1]⟩).2
      = check_duplicate_loop (coordinate_type.int 32) equals_exact
          ⟨[0, 0, 0], [0, 0, 1]⟩ 3 0 :=
  ⟨by decide, by decide, equals_exact_iff, by decide, by decide,
    duplicate_iff_all_dimensions.1 (coordinate_type.int 32) 2 3 equals_exact
      [0, 0, 0] [0, 0, 1] (by decide) (by decide) equals_exact_iff (by decide) (by decide)⟩

/-- C10 (degenerate and non-degenerate edges never share a section).  With exact
coordinate equality and `1 ≤ DimensionCount ≤ dimension<Point>`, for every
coordinate type, range of points whose coordinates it can hold, cap and prior
content, every appended section is of one of two kinds: every edge
of its half-open range is degenerate, `duplicate` is true and every entry of
`directions` is the sentinel `-99`; or none of its edges is degenerate,
`duplicate` is false and every entry of `directions` is `-1`, `0` or `1`. -/
theorem duplicate_sections_pure (ct : coordinate_type) (dc pd MaxCount : Nat)
    (equals : Int → Int → Bool)
    (range : List Point) (S : List Section) (r m : Int)
    (hdc : 0 < dc) (hle : dc ≤ pd) (hEq : ∀ x, equals x 0 = true ↔ x = 0)
    (hrep : ∀ p ∈ range, ∀ c ∈ p, representable ct c) :
    ∃ P, sectionalize_range ct dc pd MaxCount equals range S r m = S ++ P ∧
      ∀ s ∈ P,
        (s.duplicate = true ∧ s.directions = List.replicate dc (-99) ∧
          ∀ j : Nat, s.begin_index ≤ (j : Int) → (j : Int) < s.end_index →
            degenerate pd (edge_at range j)) ∨
        (s.duplicate = false ∧ (∀ x ∈ s.directions, x = -1 ∨ x = 0 ∨ x = 1) ∧
          ∀ j : Nat, s.begin_index ≤ (j : Int) → (j : Int) < s.end_index →
            ¬ degenerate pd (edge_at range j)) := by
  obtain ⟨P, hP, hok, _⟩ := sectionalize_range_appended ct dc pd MaxCount equals range S r m
  refine ⟨P, hP, ?_⟩
  intro s hs
  have hsec := hok s hs
  have hb := hsec.begin_nonneg
  have he := hsec.begin_lt_end
  have hfirst := hsec.dup_first s.begin_index.toNat (by omega)
  have hdirs := hsec.dirs s.begin_index.toNat (by omega) (by omega)
  cases hd : s.duplicate
  · right
    rw [hd] at hfirst
    refine ⟨rfl, ?_, ?_⟩
    · intro x hx
      rw [← hdirs, classify_of_not_duplicate _ _ _ _ _ hfirst] at hx
      simp only [dir_signs, List.mem_map] at hx
      obtain ⟨d, _, rfl⟩ := hx
      exact sign_cases _
    · intro j h1 h2 hdeg
      have hflag := hsec.dup hdc j h1 h2
      rw [hd] at hflag
      rw [(classify_edge_iff_degenerate ct dc pd equals range j hle hEq hrep).mpr hdeg]
        at hflag
      cases hflag
  · left
    rw [hd] at hfirst
    refine ⟨rfl, ?_, ?_⟩
    · rw [← hdirs, classify_of_duplicate _ _ _ _ _ hfirst]
    · intro j h1 h2
      have hflag := hsec.dup hdc j h1 h2
      rw [hd] at hflag
      exact (classify_edge_iff_degenerate ct dc pd equals range j hle hEq hrep).mp hflag

theorem duplicate_sections_pure_witness :
    0 < 2 ∧ 2 ≤ 3 ∧ (∀ x, equals_exact x 0 = true ↔ x = 0) ∧
    (∀ p ∈ mixed_range, ∀ c ∈ p, representable (coordinate_type.int 32) c) ∧
    ∃ P, sectionalize_range (coordinate_type.int 32) 2 3 10 equals_exact mixed_range [] (-1) (-1) =
        [] ++ P ∧
      ∀ s ∈ P,
        (s.duplicate = true ∧ s.directions = List.replicate 2 (-99) ∧
          ∀ j : Nat, s.begin_index ≤ (j : Int) → (j : Int) < s.end_index →
            degenerate 3 (edge_at mixed_range j)) ∨
        (s.duplicate = false ∧ (∀ x ∈ s.directions, x = -1 ∨ x = 0 ∨ x = 1) ∧
          ∀ j : Nat, s.begin_index ≤ (j : Int) → (j : Int) < s.end_index →
            ¬ degenerate 3 (edge_at mixed_range j)) :=
  ⟨by decide, by decide, equals_exact_iff, by decide,
    duplicate_sections_pure (coordinate_type.int 32) 2 3 10 equals_exact mixed_range [] (-1) (-1)
      (by decide) (by decide) equals_exact_iff (by decide)⟩

/-! ## The output collection is only appended to -/

theorem loop_body_prepend (ct : coordinate_type) (dc pd MaxCount : Nat)
    (equals : Int → Int → Bool) (r m : Int)
    (n : Nat) (S : List Section) (st : loop_state) (previous it : Point) :
    loop_body ct dc pd MaxCount equals r m n { st with sections := S ++ st.sections } previous it
      = { loop_body ct dc pd MaxCount equals r m n st previous it with
          sections := S ++ (loop_body ct dc pd MaxCount equals r m n st previous it).sections } :=
              by
  simp only [loop_body]
  split <;> simp

theorem loop_prepend (ct : coordinate_type) (dc pd MaxCount : Nat)
    (equals : Int → Int → Bool) (r m : Int)
    (n : Nat) (S : List Section) :
    ∀ (rest : List Point) (st : loop_state) (prev : Point),
      loop ct dc pd MaxCount equals r m n { st with sections := S ++ st.sections } prev rest
        = { loop ct dc pd MaxCount equals r m n st prev rest with
            sections := S ++ (loop ct dc pd MaxCount equals r m n st prev rest).sections } := by
  intro rest
  induction rest with
  | nil => intro st prev; rfl
  | cons it rest1 ih =>
    intro st prev
    simp only [loop]
    rw [loop_body_prepend]
    exact ih _ it

theorem sectionalize_range_prepend (ct : coordinate_type) (dc pd MaxCount : Nat)
    (equals : Int → Int → Bool)
    (range : List Point) (S : List Section) (r m : Int) :
    sectionalize_range ct dc pd MaxCount equals range S r m
      = S ++ sectionalize_range ct dc pd MaxCount equals range [] r m := by
  match range with
  | [] => simp [sectionalize_range]
  | [p] => simp [sectionalize_range]
  | p0 :: p1 :: rest =>
    rw [sectionalize_range_cons_cons, sectionalize_range_cons_cons]
    have h := loop_prepend ct dc pd MaxCount equals r m (p0 :: p1 :: rest).length S (p1 :: rest)
      ⟨[], Section.new dc, 0, 0⟩ p0
    simp only [List.append_nil] at h
    rw [h]
    by_cases hc : (loop ct dc pd MaxCount equals r m (p0 :: p1 :: rest).length
        ⟨[], Section.new dc, 0, 0⟩ p0 (p1 :: rest)).sec.count > 0
    · simp only [hc, if_true, List.append_assoc]
    · simp only [hc, if_false]

theorem sectionalize_interior_rings_eq (ct : coordinate_type) (dc pd MaxCount : Nat)
    (equals : Int → Int → Bool)
    (m : Int) :
    ∀ (rings : List (List Point)) (i : Int) (S : List Section),
      sectionalize_interior_rings ct dc pd MaxCount equals m rings i S
        = S ++ ((List.range rings.length).map
            (fun j => sectionalize_range ct dc pd MaxCount equals
              (rings.getD j []) [] (i + (j : Int)) m)).flatten := by
  intro rings
  induction rings with
  | nil => intro i S; simp [sectionalize_interior_rings]
  | cons H rest ih =>
    intro i S
    simp only [sectionalize_interior_rings]
    rw [ih, sectionalize_range_prepend, List.length_cons, List.range_succ_eq_map,
      List.map_cons, List.flatten_cons, List.map_map, List.append_assoc]
    congr 2
    · simp
    · congr 1
      apply List.map_congr_left
      intro j _
      simp only [Function.comp, Nat.succ_eq_add_one, List.getD_cons_succ]
      congr 1
      push_cast
      ring

theorem sectionalize_range_mem_ok (ct : coordinate_type) (dc pd MaxCount : Nat)
    (equals : Int → Int → Bool)
    (range : List Point) (r m : Int) (s : Section)
    (hs : s ∈ sectionalize_range ct dc pd MaxCount equals range [] r m) :
    SecOK ct dc pd MaxCount equals range r m s := by
  obtain ⟨P, hP, hok, _⟩ := sectionalize_range_appended ct dc pd MaxCount equals range [] r m
  rw [hP, List.nil_append] at hs
  exact hok s hs

theorem chain_count_sum (l : List Section) :
    ∀ (s : Section) (b : Int),
      List.Chain' (fun a b : Section => a.end_index = b.begin_index) (s :: l) →
      (∀ x ∈ s :: l, (x.count : Int) = x.end_index - x.begin_index) →
      (∀ x ∈ (s :: l).getLast?, x.end_index = b) →
      ((((s :: l).map (fun x => x.count)).sum : Nat) : Int) = b - s.begin_index := by
  induction l with
  | nil =>
    intro s b _ hc hlast
    have hb : s.end_index = b := hlast s (by simp)
    have := hc s (by simp)
    simp only [List.map_cons, List.map_nil, List.sum_cons, List.sum_nil, Nat.add_zero]
    omega
  | cons u l1 ih =>
    intro s b hch hc hlast
    have hch1 := List.chain'_cons.mp hch
    have hlast1 : ∀ x ∈ (u :: l1).getLast?, x.end_index = b := by
      intro x hx
      exact hlast x (by rwa [List.getLast?_cons_cons])
    have h1 := ih u b hch1.2 (fun x hx => hc x (List.mem_cons_of_mem _ hx)) hlast1
    have h2 := hc s (by simp)
    have h3 := hch1.1
    rw [List.map_cons, List.sum_cons, Nat.cast_add]
    omega

/-- C12 (polygon decomposition).  For every polygon, prior content `S` and
`multi_index = m`, `sectionalize_polygon` appends exactly the sections of the
exterior ring computed on its own with `ring_index = -1`, followed by those of
hole `0`, hole `1`, ... each computed on its own with its position as
`ring_index`.  So the exterior sections have `ring_index = -1`, the sections of
hole `j` have `ring_index = j`, all have `multi_index = m`, and in every ring
the first section has `begin_index = 0` and `non_duplicate_index = 0`. -/
theorem sectionalize_polygon_concat (ct : coordinate_type) (dc pd MaxCount : Nat)
    (equals : Int → Int → Bool)
    (poly : polygon) (S : List Section) (m : Int) :
    sectionalize_polygon ct dc pd MaxCount equals poly S m
      = S ++ polygon_sections_spec ct dc pd MaxCount equals poly m ∧
    (∀ s ∈ sectionalize_range ct dc pd MaxCount equals poly.exterior_ring [] (-1) m,
      s.ring_index = -1 ∧ s.multi_index = m) ∧
    (∀ j : Nat, j < poly.interior_rings.length →
      ∀ s ∈ sectionalize_range ct dc pd MaxCount equals (poly.interior_rings.getD j []) []
          (j : Int) m,
        s.ring_index = (j : Int) ∧ s.multi_index = m) ∧
    (∀ (ring : List Point) (r : Int),
      ∀ x ∈ (sectionalize_range ct dc pd MaxCount equals ring [] r m).head?,
        x.begin_index = 0 ∧ x.non_duplicate_index = 0) := by
  refine ⟨?_, ?_, ?_, ?_⟩
  · simp only [sectionalize_polygon, polygon_sections_spec]
    rw [sectionalize_interior_rings_eq, sectionalize_range_prepend, List.append_assoc]
    simp
  · intro s hs
    have h := sectionalize_range_mem_ok ct dc pd MaxCount equals _ _ _ s hs
    exact ⟨h.ring, h.multi⟩
  · intro j _ s hs
    have h := sectionalize_range_mem_ok ct dc pd MaxCount equals _ _ _ s hs
    exact ⟨h.ring, h.multi⟩
  · intro ring r x hx
    by_cases hN : 2 ≤ ring.length
    · obtain ⟨P, hP, _, hok, _, hhead, _⟩ :=
        sectionalize_range_spec ct dc pd MaxCount equals ring [] r m hN
      rw [hP, List.nil_append] at hx
      have hb := hhead x hx
      have hndi := (hok x (List.mem_of_mem_head? hx)).ndi
      rw [hb] at hndi
      exact ⟨hb, by rw [hndi]; rfl⟩
    · rw [sectionalize_range_short ct dc pd MaxCount equals ring [] r m (by omega)] at hx
      cases hx

/-- C15 (the top-level call clears before it fills).  For every geometry and every
prior content `S` of the collection, `sectionalize` gives what dispatching the
geometry with `MaxCount = 10` into an empty collection gives; the result is the
same for any other prior content, and calling it again on its own result
changes nothing. -/
theorem sectionalize_clears_first (ct : coordinate_type) (dc pd : Nat) (equals : Int → Int → Bool)
    (geometry : Geometry) (S S1 : List Section) :
    sectionalize ct dc pd equals geometry S
      = dispatch_sectionalize ct dc pd 10 equals geometry [] ∧
    sectionalize ct dc pd equals geometry S = sectionalize ct dc pd equals geometry S1 ∧
    sectionalize ct dc pd equals geometry (sectionalize ct dc pd equals geometry S)
      = sectionalize ct dc pd equals geometry S :=
  ⟨rfl, rfl, rfl⟩

/-- C16 (count is the number of edges of the index range).  For every range, cap
and prior content, every appended section has `count = end_index - begin_index`
and `count ≥ 1`; and for a range of `N ≥ 2` points the counts of the appended
sections sum to `N - 1`. -/
theorem count_is_range_length (ct : coordinate_type) (dc pd MaxCount : Nat)
    (equals : Int → Int → Bool)
    (range : List Point) (S : List Section) (r m : Int) :
    ∃ P, sectionalize_range ct dc pd MaxCount equals range S r m = S ++ P ∧
      (∀ s ∈ P, (s.count : Int) = s.end_index - s.begin_index ∧ 1 ≤ s.count) ∧
      (2 ≤ range.length → (P.map (fun s => s.count)).sum + 1 = range.length) := by
  obtain ⟨P, hP, hok, hchain⟩ := sectionalize_range_appended ct dc pd MaxCount equals range S r m
  refine ⟨P, hP, ?_, ?_⟩
  · intro s hs
    have h1 := (hok s hs).count_eq
    have h2 := (hok s hs).begin_lt_end
    exact ⟨h1, by omega⟩
  · intro hN
    obtain ⟨P1, hP1, hne, _, _, hhead, hlast⟩ :=
      sectionalize_range_spec ct dc pd MaxCount equals range S r m hN
    have hPe : P = P1 := List.append_cancel_left (hP.symm.trans hP1)
    subst hPe
    cases P with
    | nil => exact absurd rfl hne
    | cons s0 l =>
      have h0 : s0.begin_index = 0 := hhead s0 (by simp)
      have hsum := chain_count_sum l s0 _ (Adj_chain_ends MaxCount _ hchain)
        (fun x hx => (hok x hx).count_eq) hlast
      omega

theorem count_is_range_length_witness :
    ∃ P, sectionalize_range coordinate_type.exact 2 2 10 equals_exact staircase [] (-1) (-1) = []
        ++ P ∧
      (∀ s ∈ P, (s.count : Int) = s.end_index - s.begin_index ∧ 1 ≤ s.count) ∧
      (2 ≤ staircase.length → (P.map (fun s => s.count)).sum + 1 = staircase.length) :=
  count_is_range_length coordinate_type.exact 2 2 10 equals_exact staircase [] (-1) (-1)

/-- C17 (source metadata is carried on every section).  For every range of `N`
points, prior content and arguments `ring_index = r`, `multi_index = m`, every
appended section has `range_count = N`, `ring_index = r` and `multi_index = m`.
None keeps the constructor's `range_count = 0`, and the constructor's `-99`
shows in `ring_index` or `multi_index` only when the caller passes `-99`; a
linestring dispatched with the default arguments has `-1` in both. -/
theorem metadata_carried (ct : coordinate_type) (dc pd MaxCount : Nat) (equals : Int → Int → Bool)
    (range : List Point) (S : List Section) (r m : Int) :
    (∃ P, sectionalize_range ct dc pd MaxCount equals range S r m = S ++ P ∧
      ∀ s ∈ P, s.range_count = range.length ∧ s.ring_index = r ∧ s.multi_index = m ∧
        s.range_count ≠ (Section.new dc).range_count ∧
        (r ≠ -99 → s.ring_index ≠ (Section.new dc).ring_index) ∧
        (m ≠ -99 → s.multi_index ≠ (Section.new dc).multi_index)) ∧
    (∀ s ∈ dispatch_sectionalize ct dc pd MaxCount equals (Geometry.linestring range) [],
      s.ring_index = -1 ∧ s.multi_index = -1) := by
  constructor
  · obtain ⟨P, hP, hok, _⟩ := sectionalize_range_appended ct dc pd MaxCount equals range S r m
    refine ⟨P, hP, ?_⟩
    intro s hs
    have h := hok s hs
    refine ⟨h.range_count, h.ring, h.multi, ?_, ?_, ?_⟩
    · have h1 := h.range_count
      have h2 := h.end_lt_size
      have h3 := h.begin_lt_end
      have h4 := h.begin_nonneg
      show s.range_count ≠ 0
      omega
    · intro hr
      rw [h.ring]
      exact hr
    · intro hm
      rw [h.multi]
      exact hm
  · intro s hs
    have h := sectionalize_range_mem_ok ct dc pd MaxCount equals range (-1) (-1) s hs
    exact ⟨h.ring, h.multi⟩

theorem nondup_before_succ_nat (ct : coordinate_type) (dc pd : Nat) (equals : Int → Int → Bool)
    (range : List Point) (k : Nat) :
    nondup_before ct dc pd equals range (k + 1)
      = nondup_before ct dc pd equals range k
        + (if (classify ct dc pd equals (edge_at range k)).2 then 0 else 1) := by
  unfold nondup_before
  rw [List.range_succ, List.countP_append]
  cases h : (classify ct dc pd equals (edge_at range k)).2 <;> simp [h]

theorem nondup_before_add (ct : coordinate_type) (dc pd : Nat)
    (equals : Int → Int → Bool) (range : List Point)
    (b : Nat) (f : Bool) :
    ∀ n : Nat, (∀ j, b ≤ j → j < b + n → (classify ct dc pd equals (edge_at range j)).2 = f) →
      nondup_before ct dc pd equals range (b + n)
        = nondup_before ct dc pd equals range b + (if f then 0 else n) := by
  intro n
  induction n with
  | zero => intro _; cases f <;> rfl
  | succ n ih =>
    intro h
    have h1 := ih (fun j hj1 hj2 => h j hj1 (by omega))
    have h2 := h (b + n) (by omega) (by omega)
    rw [← Nat.add_assoc, nondup_before_succ_nat, h1, h2]
    cases f
    · simp only [Bool.false_eq_true, if_false]
      omega
    · simp only [if_true]

theorem nondup_before_eq_countP (ct : coordinate_type) (dc pd : Nat)
    (equals : Int → Int → Bool) (range : List Point) (k : Nat) (hle : dc ≤ pd)
    (hEq : ∀ x, equals x 0 = true ↔ x = 0)
    (hrep : ∀ p ∈ range, ∀ c ∈ p, representable ct c) :
    nondup_before ct dc pd equals range k
      = (List.range k).countP (fun j => decide (¬ degenerate pd (edge_at range j))) := by
  unfold nondup_before
  apply List.countP_congr
  intro j _
  have h := classify_edge_iff_degenerate ct dc pd equals range j hle hEq hrep
  cases hc : (classify ct dc pd equals (edge_at range j)).2
  · have : ¬ degenerate pd (edge_at range j) := fun hd => by
      rw [h.mpr hd] at hc
      cases hc
    simp [this]
  · have : degenerate pd (edge_at range j) := h.mp hc
    simp [this]

/-- C14 (`non_duplicate_index` is the running count of non-degenerate edges).  With
exact coordinate equality and `1 ≤ DimensionCount ≤ dimension<Point>`, for every
coordinate type, range of points whose coordinates it can hold, cap and prior
content: every appended section has as
`non_duplicate_index` the number of edge indices `j < begin_index` whose edge is
not degenerate; the first section has `0`; and each next section has the value
of the section before it, plus that section's `count` if it is not duplicate. -/
theorem non_duplicate_index_running (ct : coordinate_type) (dc pd MaxCount : Nat)
    (equals : Int → Int → Bool)
    (range : List Point) (S : List Section) (r m : Int)
    (hdc : 0 < dc) (hle : dc ≤ pd) (hEq : ∀ x, equals x 0 = true ↔ x = 0)
    (hrep : ∀ p ∈ range, ∀ c ∈ p, representable ct c) :
    ∃ P, sectionalize_range ct dc pd MaxCount equals range S r m = S ++ P ∧
      (∀ s ∈ P, s.non_duplicate_index
        = (((List.range s.begin_index.toNat).countP
            (fun j => decide (¬ degenerate pd (edge_at range j))) : Nat) : Int)) ∧
      (∀ x ∈ P.head?, x.non_duplicate_index = 0) ∧
      (∀ pre s t post, P = pre ++ s :: t :: post →
        t.non_duplicate_index
          = s.non_duplicate_index + (if s.duplicate then 0 else (s.count : Int))) := by
  obtain ⟨P, hP, hok, hchain⟩ := sectionalize_range_appended ct dc pd MaxCount equals range S r m
  refine ⟨P, hP, ?_, ?_, ?_⟩
  · intro s hs
    rw [(hok s hs).ndi, nondup_before_eq_countP ct dc pd equals range _ hle hEq hrep]
  · intro x hx
    by_cases hN : 2 ≤ range.length
    · obtain ⟨P1, hP1, _, _, _, hhead, _⟩ :=
        sectionalize_range_spec ct dc pd MaxCount equals range S r m hN
      have hPe : P = P1 := List.append_cancel_left (hP.symm.trans hP1)
      subst hPe
      have hb := hhead x hx
      have hndi := (hok x (List.mem_of_mem_head? hx)).ndi
      rw [hb] at hndi
      rw [hndi]
      rfl
    · rw [sectionalize_range_short ct dc pd MaxCount equals range S r m (by omega)] at hP
      have : P = [] := by simpa using hP
      subst this
      cases hx
  · intro pre s t post hPe
    subst hPe
    have hadj := chain_adjacent pre post s t hchain
    have hs := hok s (by simp)
    have ht := hok t (by simp)
    have hsb := hs.begin_nonneg
    have hse := hs.begin_lt_end
    have hcnt := hs.count_eq
    have hst := hadj.1
    have hflag : ∀ j, s.begin_index.toNat ≤ j → j < s.begin_index.toNat + s.count →
        (classify ct dc pd equals (edge_at range j)).2 = s.duplicate :=
      fun j h1 h2 => hs.dup hdc j (by omega) (by omega)
    have hadd := nondup_before_add ct dc pd equals range _ s.duplicate s.count hflag
    have hte : t.begin_index.toNat = s.begin_index.toNat + s.count := by omega
    rw [ht.ndi, hs.ndi, hte, hadd]
    cases s.duplicate
    · simp
    · simp

theorem non_duplicate_index_running_witness :
    0 < 2 ∧ 2 ≤ 3 ∧ (∀ x, equals_exact x 0 = true ↔ x = 0) ∧
    (∀ p ∈ mixed_range, ∀ c ∈ p, representable (coordinate_type.int 32) c) ∧
    ∃ P, sectionalize_range (coordinate_type.int 32) 2 3 10 equals_exact mixed_range [] (-1) (-1) =
        [] ++ P ∧
      (∀ s ∈ P, s.non_duplicate_index
        = (((List.range s.begin_index.toNat).countP
            (fun j => decide (¬ degenerate 3 (edge_at mixed_range j))) : Nat) : Int)) ∧
      (∀ x ∈ P.head?, x.non_duplicate_index = 0) ∧
      (∀ pre s t post, P = pre ++ s :: t :: post →
        t.non_duplicate_index
          = s.non_duplicate_index + (if s.duplicate then 0 else (s.count : Int))) :=
  ⟨by decide, by decide, equals_exact_iff, by decide,
    non_duplicate_index_running (coordinate_type.int 32) 2 3 10 equals_exact mixed_range [] (-1)
        (-1)
      (by decide) (by decide) equals_exact_iff (by decide)⟩

/-- C11 (duplicate coalescing).  With exact coordinate equality and
`1 ≤ DimensionCount ≤ dimension<Point>`: for every coordinate type, range of
points whose coordinates it can hold, cap and prior content, and every maximal
run of `k ≥ 1` consecutive degenerate edges `a, ..., a + k - 1`
with `k ≤ MaxCount + 1`, one appended section has `begin_index = a`,
`end_index = a + k`, `count = k` and `duplicate = true`, and no other appended
section covers an edge of the run.  Three identical points give exactly one
section, with `count = 2` and `duplicate = true`. -/
theorem duplicate_run_one_section :
    (∀ (ct : coordinate_type) (dc pd MaxCount : Nat)
        (equals : Int → Int → Bool) (range : List Point)
        (S : List Section) (r m : Int) (a k : Nat),
        0 < dc → dc ≤ pd → (∀ x, equals x 0 = true ↔ x = 0) →
        (∀ p ∈ range, ∀ c ∈ p, representable ct c) →
        1 ≤ k → k ≤ MaxCount + 1 → a + k + 1 ≤ range.length →
        (∀ j, a ≤ j → j < a + k → degenerate pd (edge_at range j)) →
        (a = 0 ∨ ¬ degenerate pd (edge_at range (a - 1))) →
        (a + k + 1 = range.length ∨ ¬ degenerate pd (edge_at range (a + k))) →
        ∃ pre t post,
          sectionalize_range ct dc pd MaxCount equals range S r m = S ++ (pre ++ t :: post) ∧
          t.begin_index = (a : Int) ∧ t.end_index = ((a + k : Nat) : Int) ∧
          t.count = k ∧ t.duplicate = true ∧
          ∀ s ∈ pre ++ post, ∀ j : Nat, a ≤ j → j < a + k → covers (j : Int) s = false) ∧
    (sectionalize_range coordinate_type.exact 2 2 10 equals_exact [[3, 4], [3, 4], [3, 4]] [] (-1)
        (-1)).map
        (fun s => (s.begin_index, s.end_index, s.count, s.duplicate))
      = [(0, 2, 2, true)] := by
  refine ⟨?_, by decide⟩
  intro ct dc pd MaxCount equals range S r m a k hdc hle hEq hrep hk1 hkM hlen hrun hleft
    hright
  obtain ⟨P, hP, hnil, hok, hchain, hhead, hlast⟩ :=
    sectionalize_range_spec ct dc pd MaxCount equals range S r m (by omega)
  have hch := Adj_chain_ends MaxCount P hchain
  have hdeg := fun (j : Nat) =>
    classify_edge_iff_degenerate ct dc pd equals range j hle hEq hrep
  cases P with
  | nil => exact absurd rfl hnil
  | cons s0 l =>
    have hs0 : s0.begin_index = 0 := hhead s0 (by simp)
    obtain ⟨pre, t, post, he, h3, h4⟩ :=
      chain_find l s0 _ (a : Int) hch hlast (by omega) (by omega)
    rw [he] at hok hchain hch hlast
    have ht := hok t (by simp)
    have htb0 := ht.begin_nonneg
    have hte0 := ht.end_lt_size
    have htc := ht.count_eq
    have htdup : t.duplicate = true := by
      rw [← ht.dup hdc a h3 h4]
      exact (hdeg a).mpr (hrun a le_rfl (by omega))
    have htb : t.begin_index = (a : Int) := by
      by_contra hcon
      have hflag := ht.dup hdc (a - 1) (by omega) (by omega)
      rw [htdup] at hflag
      rcases hleft with h0 | hnd
      · omega
      · exact hnd ((hdeg _).mp hflag)
    have hte1 : t.end_index ≤ ((a + k : Nat) : Int) := by
      by_contra hcon
      have hflag := ht.dup hdc (a + k) (by push_cast; omega) (by push_cast at hcon ⊢; omega)
      rw [htdup] at hflag
      rcases hright with h0 | hnd
      · push_cast at hcon
        omega
      · exact hnd ((hdeg _).mp hflag)
    have hte2 : ((a + k : Nat) : Int) ≤ t.end_index := by
      by_contra hcon
      cases post with
      | nil =>
        have := hlast t (by simp)
        push_cast at hcon
        omega
      | cons u post1 =>
        have hadj := chain_adjacent pre post1 t u hchain
        have hu := hok u (by simp)
        have hub := hu.begin_lt_end
        have hst := hadj.1
        have hflagu : (classify ct dc pd equals (edge_at range u.begin_index.toNat)).2 = true :=
          (hdeg _).mpr (hrun _ (by omega) (by push_cast at hcon; omega))
        have hflagt : (classify ct dc pd equals (edge_at range a)).2 = true :=
          (hdeg a).mpr (hrun a le_rfl (by omega))
        have hud := hu.dirs u.begin_index.toNat (by omega) (by omega)
        have htd := ht.dirs a h3 h4
        rw [classify_of_duplicate _ _ _ _ _ hflagu] at hud
        rw [classify_of_duplicate _ _ _ _ _ hflagt] at htd
        rcases hadj.2 with hne | hcnt
        · exact hne (hud.symm.trans htd)
        · push_cast at hcon
          omega
    have hte : t.end_index = ((a + k : Nat) : Int) := le_antisymm hte1 hte2
    have hlt : ∀ x ∈ pre ++ t :: post, x.begin_index < x.end_index :=
      fun x hx => (hok x hx).begin_lt_end
    have hpw := chain_pairwise _ hch hlt
    rw [List.pairwise_append] at hpw
    refine ⟨pre, t, post, by rw [hP, he], htb, hte, ?_, htdup, ?_⟩
    · push_cast at hte
      omega
    · intro s hs j hj1 hj2
      simp only [covers, decide_eq_false_iff_not, not_and, not_lt]
      intro hb
      rcases List.mem_append.mp hs with hpre | hpost
      · have := hpw.2.2 s hpre t (by simp)
        omega
      · have := (List.pairwise_cons.mp hpw.2.1).1 s hpost
        push_cast at hte
        omega

theorem duplicate_run_one_section_witness :
    0 < 2 ∧ 2 ≤ 3 ∧ (∀ x, equals_exact x 0 = true ↔ x = 0) ∧
    (∀ p ∈ mixed_range, ∀ c ∈ p, representable (coordinate_type.int 32) c) ∧ 1 ≤ 2 ∧ 2 ≤ 10 + 1 ∧
    2 + 2 + 1 ≤ mixed_range.length ∧
    (∀ j, 2 ≤ j → j < 2 + 2 → degenerate 3 (edge_at mixed_range j)) ∧
    (2 = 0 ∨ ¬ degenerate 3 (edge_at mixed_range (2 - 1))) ∧
    (2 + 2 + 1 = mixed_range.length ∨ ¬ degenerate 3 (edge_at mixed_range (2 + 2))) ∧
    ∃ pre t post,
      sectionalize_range (coordinate_type.int 32) 2 3 10 equals_exact mixed_range [] (-1) (-1)
        = [] ++ (pre ++ t :: post) ∧
      t.begin_index = ((2 : Nat) : Int) ∧ t.end_index = ((2 + 2 : Nat) : Int) ∧
      t.count = 2 ∧ t.duplicate = true ∧
      ∀ s ∈ pre ++ post, ∀ j : Nat, 2 ≤ j → j < 2 + 2 → covers (j : Int) s = false :=
  ⟨by decide, by decide, equals_exact_iff, by decide, by decide, by decide, by decide, by decide,
    by decide, by decide,
    duplicate_run_one_section.1 (coordinate_type.int 32) 2 3 10 equals_exact mixed_range [] (-1)
        (-1) 2 2
      (by decide) (by decide) equals_exact_iff (by decide) (by decide) (by decide) (by decide)
      (by decide) (by decide) (by decide)⟩

theorem sum_map_const (l : List Section) (c : Nat) (h : ∀ s ∈ l, s.count = c) :
    (l.map (fun s => s.count)).sum = l.length * c := by
  induction l with
  | nil => simp
  | cons x l1 ih =>
    rw [List.map_cons, List.sum_cons, ih (fun s hs => h s (List.mem_cons_of_mem _ hs)),
      h x (by simp), List.length_cons, Nat.succ_mul]
    omega

theorem minus_self (ct : coordinate_type) (a : Int) : ct.minus a a = 0 := by
  rw [minus_eq_of_representable ct a a (by rw [sub_self]; exact representable_zero ct)]
  exact sub_self a

theorem classify_first (ct : coordinate_type) (dc pd : Nat) (equals : Int → Int → Bool)
    (s : segment) (hdc : 0 < dc) :
    (classify ct dc pd equals s).1.getD 0 0
      = if (classify ct dc pd equals s).2 = true then -99
        else Int.sign (ct.minus (get s.second 0) (get s.first 0)) := by
  cases h : (classify ct dc pd equals s).2
  · rw [classify_of_not_duplicate _ _ _ _ _ h, dir_signs_getD _ _ _ _ hdc]
    simp
  · rw [classify_of_duplicate _ _ _ _ _ h, List.getD_eq_getElem _ _ (by simpa using hdc)]
    simp

/-- A segment that keeps coordinate `0` and a segment that follows or precedes it
are classified differently, unless both are flagged duplicate. -/
theorem classify_ne_of_turn (ct : coordinate_type) (dc pd : Nat) (equals : Int → Int → Bool)
    (v h : segment) (hdc : 0 < dc)
    (hv : ct.minus (get v.second 0) (get v.first 0) = 0)
    (hh : (classify ct dc pd equals h).2 = false →
      ct.minus (get h.second 0) (get h.first 0) ≠ 0)
    (hnot : ¬ ((classify ct dc pd equals v).2 = true ∧ (classify ct dc pd equals h).2 = true)) :
    (classify ct dc pd equals v).1 ≠ (classify ct dc pd equals h).1 := by
  intro heq
  have h0 := congrArg (fun l : List Int => l.getD 0 0) heq
  simp only at h0
  rw [classify_first ct dc pd equals v hdc, classify_first ct dc pd equals h hdc, hv] at h0
  cases hfv : (classify ct dc pd equals v).2 <;> cases hfh : (classify ct dc pd equals h).2
  · rw [hfv, hfh] at h0
    simp only [Bool.false_eq_true, if_false, Int.sign_zero] at h0
    exact hh hfh (Int.sign_eq_zero_iff_zero.mp h0.symm)
  · rw [hfv, hfh] at h0
    simp at h0
  · rw [hfv, hfh] at h0
    simp only [if_true, Bool.false_eq_true, if_false] at h0
    exact sign_ne_sentinel _ h0.symm
  · exact hnot ⟨hfv, hfh⟩

theorem unit_chain_map (l : List Section) :
    ∀ (s : Section) (a : Nat),
      List.Chain' (fun x y : Section => x.end_index = y.begin_index) (s :: l) →
      (∀ x ∈ s :: l, x.end_index = x.begin_index + 1 ∧ x.count = 1) →
      s.begin_index = (a : Int) →
      (s :: l).map (fun x => (x.begin_index, x.end_index, x.count))
        = (List.range' a (l.length + 1)).map (fun k : Nat => ((k : Int), (k : Int) + 1, (1 : Nat)))
            := by
  induction l with
  | nil =>
    intro s a _ hu hb
    have h := hu s (by simp)
    simp [List.range', hb, h.1, h.2]
  | cons u l1 ih =>
    intro s a hch hu hb
    have hch1 := List.chain'_cons.mp hch
    have h := hu s (by simp)
    have hub : u.begin_index = ((a + 1 : Nat) : Int) := by
      rw [← hch1.1, h.1, hb]
      push_cast
      rfl
    have hrec := ih u (a + 1) hch1.2 (fun x hx => hu x (List.mem_cons_of_mem _ hx)) hub
    rw [List.map_cons, hrec]
    show _ = List.map (fun k : Nat => ((k : Int), (k : Int) + 1, (1 : Nat)))
      (a :: List.range' (a + 1) (l1.length + 1))
    rw [List.map_cons, h.1, h.2, hb]

/-- When every edge is classified differently from the edge before it, every
section holds exactly one edge. -/
theorem sections_unit_of_turns (ct : coordinate_type) (dc pd MaxCount : Nat)
    (equals : Int → Int → Bool) (range : List Point) (S : List Section) (r m : Int)
    (hN : 2 ≤ range.length)
    (hdiff : ∀ j, j + 2 < range.length →
      (classify ct dc pd equals (edge_at range j)).1
        ≠ (classify ct dc pd equals (edge_at range (j + 1))).1) :
    ∃ P, sectionalize_range ct dc pd MaxCount equals range S r m = S ++ P ∧
      P.map (fun x => (x.begin_index, x.end_index, x.count))
        = (List.range' 0 (range.length - 1)).map (fun k : Nat => ((k : Int), (k : Int) + 1, (1 :
            Nat))) := by
  obtain ⟨P, hP, hnil, hok, hchain, hhead, hlast⟩ :=
    sectionalize_range_spec ct dc pd MaxCount equals range S r m hN
  have hch := Adj_chain_ends MaxCount P hchain
  have hunit : ∀ x ∈ P, x.end_index = x.begin_index + 1 ∧ x.count = 1 := by
    intro x hx
    have h := hok x hx
    have hb := h.begin_nonneg
    have he := h.begin_lt_end
    have hz := h.end_lt_size
    have hc := h.count_eq
    have hend : x.end_index = x.begin_index + 1 := by
      by_contra hcon
      have e1 := h.dirs x.begin_index.toNat (by omega) (by omega)
      have e2 := h.dirs (x.begin_index.toNat + 1) (by omega) (by push_cast; omega)
      exact hdiff x.begin_index.toNat (by omega) (e1.trans e2.symm)
    exact ⟨hend, by omega⟩
  cases hPc : P with
  | nil => exact absurd hPc hnil
  | cons s0 l =>
    rw [hPc] at hP hok hch hhead hlast hunit hchain
    have h0 : s0.begin_index = ((0 : Nat) : Int) := by
      rw [hhead s0 (by simp)]
      rfl
    have hmap := unit_chain_map l s0 0 hch hunit h0
    have hsum := chain_count_sum l s0 _ hch (fun y hy => (hok y hy).count_eq) hlast
    have hcnt := sum_map_const (s0 :: l) 1 (fun y hy => (hunit y hy).2)
    have hlen : l.length + 1 = range.length - 1 := by
      rw [hcnt, List.length_cons] at hsum
      have hb0 := hhead s0 (by simp)
      omega
    exact ⟨s0 :: l, hP, by rw [hmap, hlen]⟩

theorem degenerate_two (a b c d : Int) :
    degenerate 2 ⟨[a, b], [c, d]⟩ ↔ c = a ∧ d = b := by
  unfold degenerate
  constructor
  · intro h
    exact ⟨h 0 (by omega), h 1 (by omega)⟩
  · intro h k hk
    interval_cases k
    · exact h.1
    · exact h.2

theorem representable_pair (ct : coordinate_type) (a b : Int)
    (ha : representable ct a) (hb : representable ct b) :
    ∀ c ∈ ([a, b] : Point), representable ct c := by
  intro c hc
  simp only [List.mem_cons, List.mem_singleton, List.not_mem_nil, or_false] at hc
  rcases hc with h | h <;> subst h <;> assumption

theorem box_ring_counts (ct : coordinate_type) (dc MaxCount : Nat) (equals : Int → Int → Bool)
    (x0 y0 x1 y1 : Int) (hEq : ∀ x, equals x 0 = true ↔ x = 0)
    (hdc : 0 < dc) (hdc2 : dc ≤ 2) (hne : x0 < x1 ∨ y0 < y1)
    (hx0 : representable ct x0) (hy0 : representable ct y0)
    (hx1 : representable ct x1) (hy1 : representable ct y1) :
    (sectionalize_range ct dc 2 MaxCount equals
        [[x0, y0], [x0, y1], [x1, y1], [x1, y0], [x0, y0]] [] (-1) (-1)).map
        (fun s => (s.begin_index, s.end_index, s.count))
      = [(0, 1, 1), (1, 2, 1), (2, 3, 1), (3, 4, 1)] := by
  have hflag : ∀ a b c d : Int, representable ct a → representable ct b →
      representable ct c → representable ct d →
      ((classify ct dc 2 equals ⟨[a, b], [c, d]⟩).2 = true ↔ c = a ∧ d = b) := by
    intro a b c d ha hb hc hd
    rw [classify_snd_iff_degenerate ct dc 2 equals ⟨[a, b], [c, d]⟩ hdc2 hEq
      (representable_pair ct a b ha hb) (representable_pair ct c d hc hd)]
    exact degenerate_two a b c d
  have hnz : ∀ a b c d : Int, representable ct a → representable ct b →
      representable ct c → representable ct d → d = b →
      (classify ct dc 2 equals ⟨[a, b], [c, d]⟩).2 = false → ct.minus c a ≠ 0 := by
    intro a b c d ha hb hc hd hdb hf hz
    have hca := (minus_eq_zero_iff ct c a hc ha).mp hz
    rw [(hflag a b c d ha hb hc hd).mpr ⟨hca, hdb⟩] at hf
    cases hf
  have hdiff : ∀ j, j + 2 < [[x0, y0], [x0, y1], [x1, y1], [x1, y0], [x0, y0]].length →
      (classify ct dc 2 equals
          (edge_at [[x0, y0], [x0, y1], [x1, y1], [x1, y0], [x0, y0]] j)).1
        ≠ (classify ct dc 2 equals
          (edge_at [[x0, y0], [x0, y1], [x1, y1], [x1, y0], [x0, y0]] (j + 1))).1 := by
    intro j hj
    have hj5 : j + 2 < 5 := hj
    have hj3 : j < 3 := by omega
    interval_cases j
    · show (classify ct dc 2 equals ⟨[x0, y0], [x0, y1]⟩).1
        ≠ (classify ct dc 2 equals ⟨[x0, y1], [x1, y1]⟩).1
      apply classify_ne_of_turn ct dc 2 equals ⟨[x0, y0], [x0, y1]⟩ ⟨[x0, y1], [x1, y1]⟩ hdc
        (minus_self ct x0) (hnz x0 y1 x1 y1 hx0 hy1 hx1 hy1 rfl)
      intro hboth
      have h1 := (hflag x0 y0 x0 y1 hx0 hy0 hx0 hy1).mp hboth.1
      have h2 := (hflag x0 y1 x1 y1 hx0 hy1 hx1 hy1).mp hboth.2
      omega
    · show (classify ct dc 2 equals ⟨[x0, y1], [x1, y1]⟩).1
        ≠ (classify ct dc 2 equals ⟨[x1, y1], [x1, y0]⟩).1
      apply Ne.symm
      apply classify_ne_of_turn ct dc 2 equals ⟨[x1, y1], [x1, y0]⟩ ⟨[x0, y1], [x1, y1]⟩ hdc
        (minus_self ct x1) (hnz x0 y1 x1 y1 hx0 hy1 hx1 hy1 rfl)
      intro hboth
      have h1 := (hflag x1 y1 x1 y0 hx1 hy1 hx1 hy0).mp hboth.1
      have h2 := (hflag x0 y1 x1 y1 hx0 hy1 hx1 hy1).mp hboth.2
      omega
    · show (classify ct dc 2 equals ⟨[x1, y1], [x1, y0]⟩).1
        ≠ (classify ct dc 2 equals ⟨[x1, y0], [x0, y0]⟩).1
      apply classify_ne_of_turn ct dc 2 equals ⟨[x1, y1], [x1, y0]⟩ ⟨[x1, y0], [x0, y0]⟩ hdc
        (minus_self ct x1) (hnz x1 y0 x0 y0 hx1 hy0 hx0 hy0 rfl)
      intro hboth
      have h1 := (hflag x1 y1 x1 y0 hx1 hy1 hx1 hy0).mp hboth.1
      have h2 := (hflag x1 y0 x0 y0 hx1 hy0 hx0 hy0).mp hboth.2
      omega
  obtain ⟨P, hP, hmap⟩ := sections_unit_of_turns ct dc 2 MaxCount equals
    [[x0, y0], [x0, y1], [x1, y1], [x1, y0], [x0, y0]] [] (-1) (-1) (by simp) hdiff
  rw [hP, List.nil_append, hmap]
  rfl

/-- C19, as stated, fails: the box whose two corners are both `(0,0)` gives, with
`MaxCount = 10`, one single duplicate section of four edges, not four sections
of one edge each. -/
theorem box_point_one_section :
    (sectionalize_box coordinate_type.exact 2 10 equals_exact ⟨[0, 0], [0, 0]⟩ []).map
        (fun s => (s.begin_index, s.end_index, s.count, s.duplicate))
      = [(0, 4, 4, true)] ∧
    ¬ ((sectionalize_box coordinate_type.exact 2 10 equals_exact
          ⟨[0, 0], [0, 0]⟩ []).length = 4 ∧
        ∀ s ∈ sectionalize_box coordinate_type.exact 2 10 equals_exact ⟨[0, 0], [0, 0]⟩ [],
          s.count = 1) := by
  decide

/-- C19, amended (the four sides of a 2-D box that is not a single point).  With
exact coordinate equality and `1 ≤ DimensionCount ≤ 2`: for every coordinate
type and every 2-D box whose corner coordinates the type can hold, with
`min ≤ max` on each axis and `min < max` on at least one axis, any cap and any
prior content, `sectionalize_box` appends exactly four sections, one per side,
with index ranges `[0,1)`, `[1,2)`, `[2,3)`, `[3,4)` and `count = 1` each. -/
theorem box_four_sides (ct : coordinate_type) (dc MaxCount : Nat)
    (equals : Int → Int → Bool) (b : box)
    (S : List Section) (hEq : ∀ x, equals x 0 = true ↔ x = 0)
    (hdc : 0 < dc) (hdc2 : dc ≤ 2)
    (hmin : ∀ c ∈ b.min_corner, representable ct c)
    (hmax : ∀ c ∈ b.max_corner, representable ct c)
    (hx : get b.min_corner 0 ≤ get b.max_corner 0)
    (hy : get b.min_corner 1 ≤ get b.max_corner 1)
    (hne : get b.min_corner 0 < get b.max_corner 0 ∨ get b.min_corner 1 < get b.max_corner 1) :
    ∃ P, sectionalize_box ct dc MaxCount equals b S = S ++ P ∧
      P.length = 4 ∧ (∀ s ∈ P, s.count = 1) ∧
      P.map (fun s => (s.begin_index, s.end_index, s.count))
        = [(0, 1, 1), (1, 2, 1), (2, 3, 1), (3, 4, 1)] := by
  have hne1 : get b.min_corner 0 < get b.max_corner 0
      ∨ get b.min_corner 1 < get b.max_corner 1 := by
    rcases lt_or_eq_of_le hx with h | h
    · exact Or.inl h
    · rcases lt_or_eq_of_le hy with h1 | h1
      · exact Or.inr h1
      · rcases hne with h2 | h2
        · exact Or.inl h2
        · exact Or.inr h2
  have hmap := box_ring_counts ct dc MaxCount equals _ _ _ _ hEq hdc hdc2 hne1
    (representable_get ct _ 0 hmin) (representable_get ct _ 1 hmin)
    (representable_get ct _ 0 hmax) (representable_get ct _ 1 hmax)
  refine ⟨sectionalize_range ct dc 2 MaxCount equals
      [[get b.min_corner 0, get b.min_corner 1], [get b.min_corner 0, get b.max_corner 1],
        [get b.max_corner 0, get b.max_corner 1], [get b.max_corner 0, get b.min_corner 1],
        [get b.min_corner 0, get b.min_corner 1]] [] (-1) (-1), ?_, ?_, ?_, hmap⟩
  · simp only [sectionalize_box, assign_box_corners]
    exact sectionalize_range_prepend ct dc 2 MaxCount equals _ S (-1) (-1)
  · have := congrArg List.length hmap
    simpa using this
  · intro s hs
    have hmem : (s.begin_index, s.end_index, s.count) ∈
        [((0 : Int), (1 : Int), 1), (1, 2, 1), (2, 3, 1), (3, 4, 1)] := by
      rw [← hmap]
      exact List.mem_map_of_mem _ hs
    simp only [List.mem_cons, Prod.mk.injEq, List.mem_singleton, List.not_mem_nil,
      or_false] at hmem
    rcases hmem with h | h | h | h <;> exact h.2.2

theorem box_four_sides_witness :
    (∀ x, equals_exact x 0 = true ↔ x = 0) ∧ 0 < 2 ∧ 2 ≤ 2 ∧
    (∀ c ∈ (⟨[0, 0], [0, 5]⟩ : box).min_corner, representable (coordinate_type.int 32) c) ∧
    (∀ c ∈ (⟨[0, 0], [0, 5]⟩ : box).max_corner, representable (coordinate_type.int 32) c) ∧
    get (⟨[0, 0], [0, 5]⟩ : box).min_corner 0 ≤ get (⟨[0, 0], [0, 5]⟩ : box).max_corner 0 ∧
    get (⟨[0, 0], [0, 5]⟩ : box).min_corner 1 ≤ get (⟨[0, 0], [0, 5]⟩ : box).max_corner 1 ∧
    (get (⟨[0, 0], [0, 5]⟩ : box).min_corner 0 < get (⟨[0, 0], [0, 5]⟩ : box).max_corner 0 ∨
      get (⟨[0, 0], [0, 5]⟩ : box).min_corner 1 < get (⟨[0, 0], [0, 5]⟩ : box).max_corner 1) ∧
    ∃ P, sectionalize_box (coordinate_type.int 32) 2 10 equals_exact ⟨[0, 0], [0, 5]⟩ []
        = [] ++ P ∧
      P.length = 4 ∧ (∀ s ∈ P, s.count = 1) ∧
      P.map (fun s => (s.begin_index, s.end_index, s.count))
        = [(0, 1, 1), (1, 2, 1), (2, 3, 1), (3, 4, 1)] :=
  ⟨equals_exact_iff, by decide, by decide, by decide, by decide, by decide, by decide,
    by decide,
    box_four_sides (coordinate_type.int 32) 2 10 equals_exact ⟨[0, 0], [0, 5]⟩ []
      equals_exact_iff (by decide) (by decide) (by decide) (by decide) (by decide)
      (by decide) (by decide)⟩

/-! ## The equals-to-zero test -/

/-- C20, as stated, fails for an equals test with a tolerance.  With the one-unit
tolerance, which holds at `0`, and the 2-D edge `(0,0) -> (1,0)`: the direction
class of axis `0` is `1` although the test accepts the delta `1`, and the edge
is not flagged duplicate although the test accepts the delta on both axes. -/
theorem shared_equals_fails_with_tolerance :
    equals_tolerant 0 0 = true ∧
    (get_direction_loop coordinate_type.exact ⟨[0, 0], [1, 0]⟩ 2 0
      (List.replicate 2 0)).getD 0 0 = 1 ∧
    equals_tolerant (coordinate_type.exact.minus (get [1, 0] 0) (get [0, 0] 0)) 0 = true ∧
    ¬ (∀ d, d < 2 →
        ((get_direction_loop coordinate_type.exact ⟨[0, 0], [1, 0]⟩ 2 0
            (List.replicate 2 0)).getD d 0 = 0
          ↔ equals_tolerant
              (coordinate_type.exact.minus (get [1, 0] d) (get [0, 0] d)) 0 = true)) ∧
    ¬ ((classify coordinate_type.exact 2 2 equals_tolerant ⟨[0, 0], [1, 0]⟩).2 = true
        ↔ ∀ d, d < 2 →
            equals_tolerant
              (coordinate_type.exact.minus (get [1, 0] d) (get [0, 0] d)) 0 = true) := by
  decide

/-- C20, amended (one equals-to-zero test without tolerance).  For every
coordinate type and every equals-to-zero test that accepts exactly the zero
delta, with `DimensionCount ≤ dimension<Point>`, and every edge: the direction
class of axis `d < DimensionCount` is `0` exactly when the test accepts the
delta on axis `d` (the difference as the coordinate type computes it), and the
edge is flagged duplicate exactly when the test accepts the delta on every one
of the `pd` dimensions of the point type. -/
theorem shared_equals_exact (ct : coordinate_type) (dc pd : Nat)
    (equals : Int → Int → Bool) (p q : Point)
    (hle : dc ≤ pd) (hEq : ∀ x, equals x 0 = true ↔ x = 0) :
    (∀ d, d < dc →
      ((get_direction_loop ct ⟨p, q⟩ dc 0 (List.replicate dc 0)).getD d 0 = 0
        ↔ equals (ct.minus (get q d) (get p d)) 0 = true)) ∧
    ((classify ct dc pd equals ⟨p, q⟩).2 = true
      ↔ ∀ d, d < pd → equals (ct.minus (get q d) (get p d)) 0 = true) := by
  constructor
  · intro d hd
    rw [get_direction_loop_eq, dir_signs_getD ct dc ⟨p, q⟩ d hd, Int.sign_eq_zero_iff_zero,
      hEq]
  · rw [classify_snd_eq_check ct dc pd equals ⟨p, q⟩ hle hEq, check_duplicate_loop_iff]
    constructor
    · intro h d hd
      exact h d (Nat.zero_le _) (by omega)
    · intro h d _ hd
      exact h d (by omega)

theorem shared_equals_exact_witness :
    2 ≤ 3 ∧ (∀ x, equals_exact x 0 = true ↔ x = 0) ∧
    (∀ d, d < 2 →
      ((get_direction_loop (coordinate_type.int 32) ⟨[0, 0, 0], [0, 4, 1]⟩ 2 0
          (List.replicate 2 0)).getD d 0 = 0
        ↔ equals_exact
            ((coordinate_type.int 32).minus (get [0, 4, 1] d) (get [0, 0, 0] d)) 0 = true)) ∧
    ((classify (coordinate_type.int 32) 2 3 equals_exact ⟨[0, 0, 0], [0, 4, 1]⟩).2 = true
      ↔ ∀ d, d < 3 →
          equals_exact
            ((coordinate_type.int 32).minus (get [0, 4, 1] d) (get [0, 0, 0] d)) 0 = true) :=
  ⟨by decide, equals_exact_iff,
    shared_equals_exact (coordinate_type.int 32) 2 3 equals_exact [0, 0, 0] [0, 4, 1]
      (by decide) equals_exact_iff⟩

/-! ## Append-only output -/

/-- C21 (`sectionalize_range` only appends to its output).  For every range, cap,
arguments and prior content `S` of the collection: the collection after the call
is `S` followed by the sections the same call produces on an empty collection.
So the first `S.length` elements are those of `S`, each at its old position,
and the sections that follow are the same for any other prior content `S1`. -/
theorem sectionalize_range_append_only (ct : coordinate_type) (dc pd MaxCount : Nat)
    (equals : Int → Int → Bool)
    (range : List Point) (S S1 : List Section) (r m : Int) :
    sectionalize_range ct dc pd MaxCount equals range S r m
      = S ++ sectionalize_range ct dc pd MaxCount equals range [] r m ∧
    (sectionalize_range ct dc pd MaxCount equals range S r m).take S.length = S ∧
    (∀ i, i < S.length →
      (sectionalize_range ct dc pd MaxCount equals range S r m)[i]? = S[i]?) ∧
    (sectionalize_range ct dc pd MaxCount equals range S r m).drop S.length
      = (sectionalize_range ct dc pd MaxCount equals range S1 r m).drop S1.length := by
  have h := sectionalize_range_prepend ct dc pd MaxCount equals range S r m
  have h1 := sectionalize_range_prepend ct dc pd MaxCount equals range S1 r m
  refine ⟨h, ?_, ?_, ?_⟩
  · rw [h, List.take_left]
  · intro i hi
    rw [h, List.getElem?_append_left hi]
  · rw [h, h1, List.drop_left, List.drop_left]

end ggl
